import Mathlib

/-!
# LockFree: sequential semantics of the three queues

A shallow embedding of `lf_ms_queue.c`, `lf_basket_queue.c` and `lf_bqueue.c`
executed by a single thread.  Every `while (1)` loop of the C code is a
recursion on a fuel argument: one unit of fuel is one loop iteration, and
`Outcome.nofuel` is what is left when the budget is used up.  Undefined
behaviour of the C code (remainder modulo zero, a load through `NULL` or
through a freed pointer, an access outside an array) is `Outcome.ub`.

Pointers and `void*` payloads are natural numbers, `0` is `NULL`.  With one
thread a compare-and-swap succeeds exactly when the location still holds the
expected value, which is how `CAS` and `CAS2` of `cas.h` are embedded.  An
execution of several threads in which no two calls overlap is a sequence of
calls on the shared queue, and is run the same way.
-/

/-- Result of running a piece of C code with a loop budget. -/
inductive Outcome (α : Type) where
  | ret : α → Outcome α
  | ub : Outcome α
  | nofuel : Outcome α
deriving DecidableEq, Repr

/-! ## The allocator

`malloc` and `free` act on a heap of cells: address `a > 0` is entry `a - 1` of
a list, `none` marks a block that is not allocated.  `malloc` is first-fit, so
freed addresses are handed out again. -/

namespace Mem

/-- Index of the first block that is not allocated (the length when all are). -/
def free_index {α : Type} : List (Option α) → Nat
  | [] => 0
  | none :: _ => 0
  | some _ :: t => free_index t + 1

/-- Address returned by `malloc`. -/
def malloc {α : Type} (h : List (Option α)) : Nat := free_index h + 1

/-- Content of the block at address `a`, `none` for `NULL` and for memory that
is not allocated. -/
def load {α : Type} (h : List (Option α)) (a : Nat) : Option α :=
  if a = 0 then none else h.getD (a - 1) none

/-- Heap with the block at address `a` replaced by `v`. -/
def write {α : Type} (h : List (Option α)) (a : Nat) (v : Option α) : List (Option α) :=
  if a = 0 then h
  else if a - 1 < h.length then h.set (a - 1) v
  else h ++ List.replicate (a - 1 - h.length) none ++ [v]

/-- Function `free(a)`: nothing for `NULL`, undefined (`none`) for a block that is not
allocated. -/
def free {α : Type} (h : List (Option α)) (a : Nat) : Option (List (Option α)) :=
  if a = 0 then some h
  else match load h a with
    | none => none
    | some _ => some (write h a none)

end Mem

/-! ## Tsigas-Zhang bounded queue (`lf_bqueue.c`) -/

namespace BQ

/-- Macro `#define VALID(x) ((x) & 0x2)`. -/
def VALID (x : Nat) : Nat := x &&& 0x2
/-- Macro `#define NULLTYPE(x) ((x) & 0x1)`. -/
def NULLTYPE (x : Nat) : Nat := x &&& 0x1
/-- Macro `#define NULL_A 0x0`. -/
def NULL_A : Nat := 0x0
/-- Macro `#define NULL_B 0x1`. -/
def NULL_B : Nat := 0x1
/-- Macro `#define VALID_A 0x2`. -/
def VALID_A : Nat := 0x2
/-- Macro `#define VALID_B 0x3`. -/
def VALID_B : Nat := 0x3

/-- Type `typedef struct option { void* data; uintptr_t state; } option;` -/
structure option where
  data : Nat
  state : Nat
deriving DecidableEq, Repr

/-- Type `struct bqueue { size_t max; size_t head; size_t tail; option* nodes; }`:
the array `nodes` is the list of its slots. -/
structure bqueue where
  max : Nat
  head : Nat
  tail : Nat
  nodes : List option
deriving DecidableEq, Repr

/-- The assignment `nodes[i].state = s`; `none` when slot `i` lies outside the
array, where the write is undefined behaviour. -/
def set_state (nodes : List option) (i s : Nat) : Option (List option) :=
  match nodes[i]? with
  | some o => some (nodes.set i { o with state := s })
  | none => none

/-- The loop `for (size_t i = 1; i <= max; i++) nodes[i].state = NULL_B;`
with `k` iterations left and loop variable `i`; `none` as soon as a write
falls outside the array. -/
def init_loop : Nat → Nat → List option → Option (List option)
  | 0, _, nodes => some nodes
  | k + 1, i, nodes =>
    match set_state nodes i NULL_B with
    | none => none
    | some nodes1 => init_loop k (i + 1) nodes1

/-- Function `new_bqueue(max)`, for a `size_t` value `max`.  The byte count
`(max + 1) * sizeof(option)` is computed in `size_t`, so it wraps at `2 ^ 64`
(`sizeof(option)` is 16), and `malloc` returns room for `bytes / 16` slots.
`malloc` does not initialise memory: `junk i` is what slot `i` of the fresh
array holds before the constructor writes the `state` fields; the `data`
fields keep that content.  The code does not test what `malloc` returns; the
allocation is taken to succeed.  A write outside the array is undefined
behaviour. -/
def new_bqueue (max : Nat) (junk : Nat → option) : Outcome bqueue :=
  let bytes := ((max + 1) % 2 ^ 64 * 16) % 2 ^ 64
  let nodes := (List.range (bytes / 16)).map junk
  match init_loop max 1 nodes with
  | none => .ub
  | some nodes =>
    match set_state nodes 0 NULL_A with
    | none => .ub
    | some nodes => .ret { max := max, head := 0, tail := 1, nodes := nodes }

/-- Function `CAS(&q->head, old, new)` run by the only thread. -/
def CAS_head (q : bqueue) (old new : Nat) : Bool × bqueue :=
  if q.head = old then (true, { q with head := new }) else (false, q)

/-- Function `CAS(&q->tail, old, new)` run by the only thread. -/
def CAS_tail (q : bqueue) (old new : Nat) : Bool × bqueue :=
  if q.tail = old then (true, { q with tail := new }) else (false, q)

/-- Function `CAS2(&q->nodes[i], old_data, old_count, new_data, new_count)`: the slot is
one 128-bit word, `data` in the low half and `state` in the high half.
`none` when `i` is outside the array. -/
def CAS2 (q : bqueue) (i old_data old_count new_data new_count : Nat) :
    Option (Bool × bqueue) :=
  match q.nodes[i]? with
  | none => none
  | some o =>
    if o.data = old_data ∧ o.state = old_count then
      some (true, { q with nodes := q.nodes.set i ⟨new_data, new_count⟩ })
    else some (false, q)

/-- The inner loop of `bqueue_enq` ("find the actual tail"), lines 67-81:
returns the final values of `cell` and `new_tail`. -/
def enq_walk : Nat → bqueue → Nat → option → Nat → Outcome (option × Nat)
  | 0, _, _, _, _ => .nofuel
  | fuel + 1, q, tail, cell, new_tail =>
    if VALID cell.state ≠ 0 then
      if tail ≠ q.tail then .ret (cell, new_tail)
      else if new_tail = q.head then .ret (cell, new_tail)
      else
        match q.nodes[new_tail]? with
        | none => .ub
        | some c => enq_walk fuel q tail c ((new_tail + 1) % q.max)
    else .ret (cell, new_tail)

/-- Function `bqueue_enq(q, data)`: the returned pair is the `int` result and the queue
afterwards. Each iteration of the outer `while (1)` costs one unit of fuel and
the inner loop gets the budget that is left. -/
def bqueue_enq : Nat → bqueue → Nat → Outcome (Nat × bqueue)
  | 0, _, _ => .nofuel
  | fuel + 1, q, data =>
    let tail := q.tail
    match q.nodes[tail]? with
    | none => .ub
    | some cell =>
      if q.max = 0 then .ub else
      let new_tail := (tail + 1) % q.max
      match enq_walk (fuel + 1) q tail cell new_tail with
      | .ub => .ub
      | .nofuel => .nofuel
      | .ret (cell, new_tail) =>
        if tail ≠ q.tail then bqueue_enq fuel q data
        else if new_tail = q.head then
          let tail_mod := (new_tail + 1) % q.max
          match q.nodes[new_tail]? with
          | none => .ub
          | some cell =>
            if VALID cell.state ≠ 0 then .ret (0, q)
            else bqueue_enq fuel (CAS_head q new_tail tail_mod).2 data
        else
          let state := if NULLTYPE cell.state ≠ 0 then VALID_A else VALID_B
          if tail ≠ q.tail then bqueue_enq fuel q data
          else
            match CAS2 q new_tail cell.data cell.state data state with
            | none => .ub
            | some (true, q1) => .ret (1, (CAS_tail q1 tail new_tail).2)
            | some (false, q1) => bqueue_enq fuel q1 data

/-- The inner loop of `bqueue_deq` ("find the correct head"), lines 143-156:
`.ret (some (cell, new_head))` when the loop is left by its condition or by
`break`, `.ret none` when it executes `return 0`. -/
def deq_walk : Nat → bqueue → Nat → option → Nat → Outcome (Option (option × Nat))
  | 0, _, _, _, _ => .nofuel
  | fuel + 1, q, head, cell, new_head =>
    if VALID cell.state = 0 then
      if head ≠ q.head then .ret (some (cell, new_head))
      else if new_head = q.tail then .ret none
      else
        let new_head := (new_head + 1) % q.max
        match q.nodes[new_head]? with
        | none => .ub
        | some c => deq_walk fuel q head c new_head
    else .ret (some (cell, new_head))

/-- Function `bqueue_deq(q, result)`: `result` is the content of `*result` before the
call; the returned triple is the `int` result, the content of `*result`
afterwards, and the queue afterwards. -/
def bqueue_deq : Nat → bqueue → Nat → Outcome (Nat × Nat × bqueue)
  | 0, _, _ => .nofuel
  | fuel + 1, q, result =>
    if q.max = 0 then .ub else
    let head := q.head
    let new_head := (head + 1) % q.max
    match q.nodes[new_head]? with
    | none => .ub
    | some cell =>
      match deq_walk (fuel + 1) q head cell new_head with
      | .ub => .ub
      | .nofuel => .nofuel
      | .ret none => .ret (0, result, q)
      | .ret (some (cell, new_head)) =>
        if head ≠ q.head then bqueue_deq fuel q result
        else
          match CAS_tail q new_head ((new_head + 1) % q.max) with
          | (true, q1) => bqueue_deq fuel q1 result
          | (false, q1) =>
            let new := if NULLTYPE cell.state ≠ 0 then 0 else 1
            match CAS2 q1 new_head cell.data cell.state 0 new with
            | none => .ub
            | some (true, q2) => .ret (1, cell.data, (CAS_head q2 head new_head).2)
            | some (false, q2) => bqueue_deq fuel q2 result

/-- Function `bqueue_enq_repeat(q, data)` from the loop test on, with the current value
of `wait`.  While this thread is inside `nanosleep` the other threads run:
`env n q` is the queue they leave behind after the sleep that follows the
`n`-th failed attempt counted from the start (`n` is the number of sleeps
already taken).  Returns the queue and the list of the `tv_nsec` values passed
to `nanosleep`, in order. -/
def enq_repeat_loop (enqfuel : Nat) (env : Nat → bqueue → bqueue) (data : Nat) :
    Nat → Nat → Nat → bqueue → Outcome (bqueue × List Nat)
  | 0, _, _, _ => .nofuel
  | fuel + 1, n, wait, q =>
    match bqueue_enq enqfuel q data with
    | .ub => .ub
    | .nofuel => .nofuel
    | .ret (r, q1) =>
      if r ≠ 0 then .ret (q1, [])
      else
        let wait := if wait > 128 then 128 else wait
        let timer := wait * 1000
        match enq_repeat_loop enqfuel env data fuel (n + 1) (wait * 2) (env n q1) with
        | .ret (q2, sleeps) => .ret (q2, timer :: sleeps)
        | .ub => .ub
        | .nofuel => .nofuel

/-- The premise "`bqueue_enq` fails exactly `k` times before succeeding" for
`enq_repeat_loop` started after `n` sleeps on queue `q`: the next `k` attempts
return 0, the one after them returns 1 and leaves the queue `q1`. -/
def enq_fails_then_succeeds (enqfuel : Nat) (env : Nat → bqueue → bqueue) (data : Nat) :
    Nat → Nat → bqueue → bqueue → Prop
  | 0, _, q, q1 => bqueue_enq enqfuel q data = .ret (1, q1)
  | k + 1, n, q, q1 =>
    ∃ q0, bqueue_enq enqfuel q data = .ret (0, q0) ∧
      enq_fails_then_succeeds enqfuel env data k (n + 1) (env n q0) q1

/-- Function `bqueue_enq_repeat(q, data)`: the loop starts with `wait = 2`. -/
def bqueue_enq_repeat (enqfuel fuel : Nat) (env : Nat → bqueue → bqueue)
    (q : bqueue) (data : Nat) : Outcome (bqueue × List Nat) :=
  enq_repeat_loop enqfuel env data fuel 0 2 q

/-- The slot state `bqueue_enq` installs over an observed state `s` (line 104):
`NULLTYPE(cell.state) ? VALID_A : VALID_B`. -/
def enq_state (s : Nat) : Nat := if NULLTYPE s ≠ 0 then VALID_A else VALID_B

/-- The slot state `bqueue_deq` installs over an observed state `s` (line 169):
`!NULLTYPE(cell.state)`. -/
def deq_state (s : Nat) : Nat := if NULLTYPE s ≠ 0 then 0 else 1

/-- One pass through the body of the outer `while (1)` of `bqueue_enq`, the inner
loop with budget `fuel`: `Sum.inl (r, q)` when the pass executes `return r`
leaving the queue `q`, `Sum.inr q` when it ends in `continue` or at the end of
the body with the queue `q`. -/
def enq_iter (fuel : Nat) (q : bqueue) (data : Nat) : Outcome ((Nat × bqueue) ⊕ bqueue) :=
  let tail := q.tail
  match q.nodes[tail]? with
  | none => .ub
  | some cell =>
    if q.max = 0 then .ub else
    let new_tail := (tail + 1) % q.max
    match enq_walk fuel q tail cell new_tail with
    | .ub => .ub
    | .nofuel => .nofuel
    | .ret (cell, new_tail) =>
      if tail ≠ q.tail then .ret (.inr q)
      else if new_tail = q.head then
        let tail_mod := (new_tail + 1) % q.max
        match q.nodes[new_tail]? with
        | none => .ub
        | some cell =>
          if VALID cell.state ≠ 0 then .ret (.inl (0, q))
          else .ret (.inr (CAS_head q new_tail tail_mod).2)
      else
        let state := enq_state cell.state
        if tail ≠ q.tail then .ret (.inr q)
        else
          match CAS2 q new_tail cell.data cell.state data state with
          | none => .ub
          | some (true, q1) => .ret (.inl (1, (CAS_tail q1 tail new_tail).2))
          | some (false, q1) => .ret (.inr q1)

/-- The successful update a slot in state `s` can undergo: a dequeue when it is
`VALID`, an enqueue when it is not. -/
def slot_update (s : Nat) : Nat := if VALID s ≠ 0 then deq_state s else enq_state s

/-- State of a slot that started in `s` after `n` successful updates. -/
def slot_after : Nat → Nat → Nat
  | 0, s => s
  | n + 1, s => slot_after n (slot_update s)

end BQ

/-! ## Michael-Scott queue (`lf_ms_queue.c`) -/

namespace MS

/-- Type `typedef struct cell { struct cell* next; void* data; } cell;` -/
structure cell where
  next : Nat
  data : Nat
deriving DecidableEq, Repr

/-- Type `struct queue` together with the heap its cells live in. -/
structure queue where
  head : Nat
  head_count : Nat
  tail : Nat
  tail_count : Nat
  heap : List (Option cell)
deriving DecidableEq, Repr

/-- Function `new_queue()`: `junk` is the indeterminate content of `dummy->data`. -/
def new_queue (junk : Nat) : queue :=
  let heap : List (Option cell) := []
  let dummy := Mem.malloc heap
  let heap := Mem.write heap dummy (some ⟨0, junk⟩)
  { head := dummy, head_count := 0, tail := dummy, tail_count := 0, heap := heap }

/-- Function `CAS2(&queue->head, old, old_count, new, new_count)` run by the only thread. -/
def CAS2_head (q : queue) (old old_count new new_count : Nat) : Bool × queue :=
  if q.head = old ∧ q.head_count = old_count then
    (true, { q with head := new, head_count := new_count })
  else (false, q)

/-- Function `CAS2(&queue->tail, old, old_count, new, new_count)` run by the only thread. -/
def CAS2_tail (q : queue) (old old_count new new_count : Nat) : Bool × queue :=
  if q.tail = old ∧ q.tail_count = old_count then
    (true, { q with tail := new, tail_count := new_count })
  else (false, q)

/-- The `while (1)` loop of `queue_enq` and the `CAS2` after it; `c` is the new
cell. Counters are `uintptr_t`, so `+ 1` wraps at `2 ^ 64`. -/
def enq_loop : Nat → queue → Nat → Outcome queue
  | 0, _, _ => .nofuel
  | fuel + 1, q, c =>
    let tail_count := q.tail_count
    let tail := q.tail
    match Mem.load q.heap tail with
    | none => .ub
    | some t =>
      if t.next = 0 then
        let q1 := { q with heap := Mem.write q.heap tail (some { t with next := c }) }
        .ret (CAS2_tail q1 tail tail_count c ((tail_count + 1) % 2 ^ 64)).2
      else
        enq_loop fuel (CAS2_tail q tail tail_count t.next ((tail_count + 1) % 2 ^ 64)).2 c

/-- Function `queue_enq(queue, data)`. -/
def queue_enq (fuel : Nat) (q : queue) (data : Nat) : Outcome queue :=
  let c := Mem.malloc q.heap
  let q := { q with heap := Mem.write q.heap c (some ⟨0, data⟩) }
  enq_loop fuel q c

/-- Function `queue_deq(queue, result)`: `result` is the content of `*result` before the
call; the returned triple is the `int` result, the content of `*result`
afterwards, and the queue afterwards. -/
def queue_deq : Nat → queue → Nat → Outcome (Nat × Nat × queue)
  | 0, _, _ => .nofuel
  | fuel + 1, q, result =>
    let head_count := q.head_count
    let tail_count := q.tail_count
    let head := q.head
    let tail := q.tail
    match Mem.load q.heap head with
    | none => .ub
    | some h =>
      let next := h.next
      if head ≠ q.head then queue_deq fuel q result
      else if head = tail then
        if next = 0 then .ret (0, result, q)
        else
          queue_deq fuel (CAS2_tail q tail tail_count next ((tail_count + 1) % 2 ^ 64)).2 result
      else if next ≠ 0 then
        match Mem.load q.heap next with
        | none => .ub
        | some n =>
          let result := n.data
          match CAS2_head q head head_count next ((head_count + 1) % 2 ^ 64) with
          | (true, q1) =>
            match Mem.free q1.heap head with
            | none => .ub
            | some heap => .ret (1, result, { q1 with heap := heap })
          | (false, q1) => queue_deq fuel q1 result
      else queue_deq fuel q result

/-- A call made by the client of a queue. -/
inductive Op where
  | enq : Nat → Op
  | deq : Op
deriving DecidableEq, Repr

/-- Runs the calls `ops` in order on `q`, every call with loop budget `fuel`.
`result` is the variable whose address is passed to every `queue_deq`. The
list holds, for each `queue_deq` in order, its return value and the content of
`result` after it. -/
def run (fuel : Nat) : queue → Nat → List Op → Outcome (List (Nat × Nat) × queue)
  | q, _, [] => .ret ([], q)
  | q, result, Op.enq x :: ops =>
    match queue_enq fuel q x with
    | .ret q1 => run fuel q1 result ops
    | .ub => .ub
    | .nofuel => .nofuel
  | q, result, Op.deq :: ops =>
    match queue_deq fuel q result with
    | .ret (r, result1, q1) =>
      match run fuel q1 result1 ops with
      | .ret (rs, q2) => .ret ((r, result1) :: rs, q2)
      | .ub => .ub
      | .nofuel => .nofuel
    | .ub => .ub
    | .nofuel => .nofuel

/-- The abstract FIFO: `xs` are the values enqueued and not yet dequeued, oldest
first. A dequeue of a non-empty list returns 1 and stores the oldest value; a
dequeue of the empty list returns 0 and stores nothing. -/
def fifo_run : List Nat → Nat → List Op → List (Nat × Nat)
  | _, _, [] => []
  | xs, result, Op.enq x :: ops => fifo_run (xs ++ [x]) result ops
  | [], result, Op.deq :: ops => (0, result) :: fifo_run [] result ops
  | x :: xs, _, Op.deq :: ops => (1, x) :: fifo_run xs x ops

/-- The list that starts at address `a`: the cell at `a` holds payload `d`,
`cells` lists address and payload of the cells reached from it by following
`next`, in order, and the last cell has `next == NULL`. -/
def Linked (h : List (Option cell)) : Nat → Nat → List (Nat × Nat) → Prop
  | a, d, [] => Mem.load h a = some ⟨0, d⟩
  | a, d, (b, x) :: rest => Mem.load h a = some ⟨b, d⟩ ∧ b ≠ 0 ∧ Linked h b x rest

/-- Structure of a queue between two calls: the sentinel `head` starts a list
without repeated cells whose cells after the sentinel are `cells`, and `tail`
is the last cell of it. -/
def Inv (q : queue) (cells : List (Nat × Nat)) : Prop :=
  (∃ d, Linked q.heap q.head d cells) ∧
  (q.head :: cells.map Prod.fst).Nodup ∧
  q.tail = (q.head :: cells.map Prod.fst).getLast (List.cons_ne_nil _ _)

/-- The values enqueued and not yet dequeued after the calls `ops` on the
abstract FIFO that held `xs`, oldest first. -/
def fifo_pending : List Nat → List Op → List Nat
  | xs, [] => xs
  | xs, Op.enq x :: ops => fifo_pending (xs ++ [x]) ops
  | [], Op.deq :: ops => fifo_pending [] ops
  | _ :: xs, Op.deq :: ops => fifo_pending xs ops

/-- Number of `queue_enq` calls among `ops`. -/
def enq_count : List Op → Nat
  | [] => 0
  | Op.enq _ :: ops => enq_count ops + 1
  | Op.deq :: ops => enq_count ops

/-- Number of `queue_deq` calls that returned 1, from the list of their return
values and stored results. -/
def success_count : List (Nat × Nat) → Nat
  | [] => 0
  | (r, _) :: rs => (if r = 1 then 1 else 0) + success_count rs

end MS

/-! ## Baskets queue (`lf_basket_queue.c`) -/

namespace Basket

/-- Type `typedef struct pointer { struct cell* ptr; uintptr_t tag; } pointer;` -/
structure pointer where
  ptr : Nat
  tag : Nat
deriving DecidableEq, Repr

/-- Function `delete_tag(deleted, tag)`: `(0xFFFFFFFFFFFFFFFF >> (!deleted)) & tag`. -/
def delete_tag (deleted : Nat) (tag : Nat) : Nat :=
  (0xFFFFFFFFFFFFFFFF >>> (if deleted = 0 then 1 else 0)) &&& tag

/-- Function `deleted(tag)`: `!!(((uintptr_t)1 << 63) & tag)`. -/
def deleted (tag : Nat) : Nat :=
  if (1 <<< 63) &&& tag = 0 then 0 else 1

/-- Type `typedef struct cell { struct pointer next; void* data; } cell;` -/
structure cell where
  next : pointer
  data : Nat
deriving DecidableEq, Repr

/-- Type `struct queue` together with the heap its cells live in. -/
structure queue where
  head : pointer
  tail : pointer
  heap : List (Option cell)
deriving DecidableEq, Repr

/-- Function `pointer_cmp(a, b)`: 1 if the two pointers are equal, else 0. -/
def pointer_cmp (a b : pointer) : Nat :=
  if a.ptr ≠ b.ptr then 0
  else if a.tag ≠ b.tag then 0
  else 1

/-- Function `new_queue()`: `junk` is the indeterminate content of `dummy->data`. -/
def new_queue (junk : Nat) : queue :=
  let heap : List (Option cell) := []
  let dummy := Mem.malloc heap
  let heap := Mem.write heap dummy (some ⟨⟨0, 0⟩, junk⟩)
  { tail := ⟨dummy, 0⟩, head := ⟨dummy, 0⟩, heap := heap }

/-- Function `CAS2(&q->head, old_ptr, old_tag, new_ptr, new_tag)` run by the only thread. -/
def CAS2_head (q : queue) (old_ptr old_tag new_ptr new_tag : Nat) : Bool × queue :=
  if q.head.ptr = old_ptr ∧ q.head.tag = old_tag then
    (true, { q with head := ⟨new_ptr, new_tag⟩ })
  else (false, q)

/-- Function `CAS2(&q->tail, old_ptr, old_tag, new_ptr, new_tag)` run by the only thread. -/
def CAS2_tail (q : queue) (old_ptr old_tag new_ptr new_tag : Nat) : Bool × queue :=
  if q.tail.ptr = old_ptr ∧ q.tail.tag = old_tag then
    (true, { q with tail := ⟨new_ptr, new_tag⟩ })
  else (false, q)

/-- Function `CAS2(&a->next, old_ptr, old_tag, new_ptr, new_tag)` run by the only thread;
`none` when `a` is not an allocated cell. -/
def CAS2_next (q : queue) (a old_ptr old_tag new_ptr new_tag : Nat) : Option (Bool × queue) :=
  match Mem.load q.heap a with
  | none => none
  | some c =>
    if c.next.ptr = old_ptr ∧ c.next.tag = old_tag then
      some (true, { q with heap := Mem.write q.heap a (some { c with next := ⟨new_ptr, new_tag⟩ }) })
    else some (false, q)

/-- The loop `while (next.ptr->next.ptr != NULL && pointer_cmp(q->tail, tail))
next = next.ptr->next;` of `queue_enq` and `queue_deq`: the final `next`. -/
def help_walk : Nat → queue → pointer → pointer → Outcome pointer
  | 0, _, _, _ => .nofuel
  | fuel + 1, q, tail, next =>
    match Mem.load q.heap next.ptr with
    | none => .ub
    | some n =>
      if n.next.ptr ≠ 0 ∧ pointer_cmp q.tail tail ≠ 0 then help_walk fuel q tail n.next
      else .ret next

/-- The `for` loop of `queue_enq` (lines 90-99) from its first test on, for a
`next` just read from `tail.ptr->next`: `true` when the loop executes `return`,
`false` when its condition ends it. -/
def basket_loop : Nat → queue → pointer → Nat → pointer → Outcome (Bool × queue)
  | 0, _, _, _, _ => .nofuel
  | fuel + 1, q, tail, c, next =>
    if next.tag = (tail.tag + 1) % 2 ^ 64 ∧ deleted next.tag = 0 then
      match Mem.load q.heap c with
      | none => .ub
      | some cc =>
        let q1 := { q with heap := Mem.write q.heap c (some { cc with next := next }) }
        let tag := delete_tag 0 ((tail.tag + 1) % 2 ^ 64)
        match CAS2_next q1 tail.ptr next.ptr next.tag c tag with
        | none => .ub
        | some (true, q2) => .ret (true, q2)
        | some (false, q2) =>
          match Mem.load q2.heap tail.ptr with
          | none => .ub
          | some t => basket_loop fuel q2 tail c t.next
    else .ret (false, q)

/-- The `while (1)` loop of `queue_enq`; `c` is the new cell. Tags are
`uintptr_t`, so `+ 1` and `+ 2` wrap at `2 ^ 64`. -/
def enq_loop : Nat → queue → Nat → Outcome queue
  | 0, _, _ => .nofuel
  | fuel + 1, q, c =>
    let tail := q.tail
    match Mem.load q.heap tail.ptr with
    | none => .ub
    | some t =>
      let next := t.next
      if pointer_cmp tail q.tail = 0 then enq_loop fuel q c
      else if next.ptr = 0 then
        match Mem.load q.heap c with
        | none => .ub
        | some cc =>
          let c_next : pointer := ⟨0, delete_tag 0 ((tail.tag + 2) % 2 ^ 64)⟩
          let q1 := { q with heap := Mem.write q.heap c (some { cc with next := c_next }) }
          let tag := delete_tag 0 ((tail.tag + 1) % 2 ^ 64)
          match CAS2_next q1 tail.ptr next.ptr next.tag c tag with
          | none => .ub
          | some (true, q2) => .ret (CAS2_tail q2 tail.ptr tail.tag c tag).2
          | some (false, q2) =>
            match Mem.load q2.heap tail.ptr with
            | none => .ub
            | some t1 =>
              match basket_loop fuel q2 tail c t1.next with
              | .ub => .ub
              | .nofuel => .nofuel
              | .ret (true, q3) => .ret q3
              | .ret (false, q3) => enq_loop fuel q3 c
      else
        match help_walk (fuel + 1) q tail next with
        | .ub => .ub
        | .nofuel => .nofuel
        | .ret next1 =>
          let tag := delete_tag 0 ((tail.tag + 1) % 2 ^ 64)
          enq_loop fuel (CAS2_tail q tail.ptr tail.tag next1.ptr tag).2 c

/-- Function `queue_enq(q, data)`: `junk` is the indeterminate content of `c->next`
right after `malloc`. -/
def queue_enq (fuel : Nat) (q : queue) (data : Nat) (junk : pointer) : Outcome queue :=
  let c := Mem.malloc q.heap
  let q := { q with heap := Mem.write q.heap c (some ⟨junk, data⟩) }
  enq_loop fuel q c

/-- The loop of `free_chain` that frees the cells from `head.ptr` up to but
excluding `new.ptr`. -/
def free_cells : Nat → List (Option cell) → Nat → Nat → Outcome (List (Option cell))
  | 0, _, _, _ => .nofuel
  | fuel + 1, heap, head, new =>
    if head ≠ new then
      match Mem.load heap head with
      | none => .ub
      | some h =>
        match Mem.free heap head with
        | none => .ub
        | some heap1 => free_cells fuel heap1 h.next.ptr new
    else .ret heap

/-- Function `free_chain(q, head, new)`. -/
def free_chain (fuel : Nat) (q : queue) (head new : pointer) : Outcome queue :=
  let tag := delete_tag 0 ((head.tag + 1) % 2 ^ 64)
  match CAS2_head q head.ptr head.tag new.ptr tag with
  | (true, q1) =>
    match free_cells fuel q1.heap head.ptr new.ptr with
    | .ret heap => .ret { q1 with heap := heap }
    | .ub => .ub
    | .nofuel => .nofuel
  | (false, q1) => .ret q1

/-- The loop of `queue_deq` that walks over deleted links (lines 148-153): the
final `iter`, `next` and `hops`. -/
def hop_walk : Nat → queue → pointer → pointer → pointer → pointer → Nat →
    Outcome (pointer × pointer × Nat)
  | 0, _, _, _, _, _, _ => .nofuel
  | fuel + 1, q, head, tail, iter, next, hops =>
    if deleted next.tag ≠ 0 ∧ iter.ptr ≠ tail.ptr ∧ pointer_cmp q.head head ≠ 0 then
      match Mem.load q.heap next.ptr with
      | none => .ub
      | some n => hop_walk fuel q head tail next n.next ((hops + 1) % 2 ^ 64)
    else .ret (iter, next, hops)

/-- Function `queue_deq(q, result)`: `result` is the content of `*result` before the
call; the returned triple is the `int` result, the content of `*result`
afterwards, and the queue afterwards. -/
def queue_deq : Nat → queue → Nat → Outcome (Nat × Nat × queue)
  | 0, _, _ => .nofuel
  | fuel + 1, q, result =>
    let max_hops := 3
    let head := q.head
    let tail := q.tail
    match Mem.load q.heap head.ptr with
    | none => .ub
    | some h =>
      let next := h.next
      if pointer_cmp head q.head = 0 then queue_deq fuel q result
      else if head.ptr = tail.ptr then
        if next.ptr = 0 then .ret (0, result, q)
        else
          match help_walk (fuel + 1) q tail next with
          | .ub => .ub
          | .nofuel => .nofuel
          | .ret next1 =>
            let tag := delete_tag 0 ((tail.tag + 1) % 2 ^ 64)
            queue_deq fuel (CAS2_tail q tail.ptr tail.tag next1.ptr tag).2 result
      else
        match hop_walk (fuel + 1) q head tail head next 0 with
        | .ub => .ub
        | .nofuel => .nofuel
        | .ret (iter, next, hops) =>
          if pointer_cmp q.head head = 0 then queue_deq fuel q result
          else if iter.ptr = tail.ptr then
            match free_chain (fuel + 1) q head iter with
            | .ub => .ub
            | .nofuel => .nofuel
            | .ret q1 => queue_deq fuel q1 result
          else
            match Mem.load q.heap next.ptr with
            | none => .ub
            | some n =>
              let value := n.data
              let tag := delete_tag 1 ((next.tag + 1) % 2 ^ 64)
              match CAS2_next q iter.ptr next.ptr next.tag next.ptr tag with
              | none => .ub
              | some (true, q1) =>
                if hops ≥ max_hops then
                  match free_chain (fuel + 1) q1 head next with
                  | .ub => .ub
                  | .nofuel => .nofuel
                  | .ret q2 => .ret (1, value, q2)
                else .ret (1, value, q1)
              | some (false, q1) => queue_deq fuel q1 result

/-- Enqueues the values of `xs` in order, every call with loop budget `fuel`. -/
def enq_all (fuel : Nat) : queue → List Nat → Outcome queue
  | q, [] => .ret q
  | q, x :: xs =>
    match queue_enq fuel q x ⟨0, 0⟩ with
    | .ret q1 => enq_all fuel q1 xs
    | .ub => .ub
    | .nofuel => .nofuel

/-- Calls `queue_deq` `n` times, every call with loop budget `fuel`: for each
call its return value and the content of `result` after it. -/
def deq_n (fuel : Nat) : Nat → queue → Nat → Outcome (List (Nat × Nat) × queue)
  | 0, q, _ => .ret ([], q)
  | n + 1, q, result =>
    match queue_deq fuel q result with
    | .ret (r, result1, q1) =>
      match deq_n fuel n q1 result1 with
      | .ret (rs, q2) => .ret ((r, result1) :: rs, q2)
      | .ub => .ub
      | .nofuel => .nofuel
    | .ub => .ub
    | .nofuel => .nofuel

/-- What the client sees when it enqueues `xs` on `new_queue()` and then calls
`queue_deq` `n` times: return value and stored result of every `queue_deq`. -/
def enq_deq_trace (fuel junk : Nat) (xs : List Nat) (n result : Nat) :
    Outcome (List (Nat × Nat)) :=
  match enq_all fuel (new_queue junk) xs with
  | .ret q =>
    match deq_n fuel n q result with
    | .ret (rs, _) => .ret rs
    | .ub => .ub
    | .nofuel => .nofuel
  | .ub => .ub
  | .nofuel => .nofuel

/-- State in which the cell behind `head` holds `x` and is still linked there
with tag `k`, `head` is not `tail`, and `tail` designates a cell without
successor. -/
def OldestStays (q : queue) (x k : Nat) : Prop :=
  ∃ h n t, Mem.load q.heap q.head.ptr = some h ∧ h.next.tag = k ∧ h.next.ptr ≠ q.head.ptr ∧
    Mem.load q.heap h.next.ptr = some n ∧ n.data = x ∧ q.head.ptr ≠ q.tail.ptr ∧
    Mem.load q.heap q.tail.ptr = some t ∧ t.next.ptr = 0

/-- A call made by the client of a queue. -/
inductive Op where
  | enq : Nat → Op
  | deq : Op
deriving DecidableEq, Repr

/-- Runs the calls `ops` in order on `q`, every call with loop budget `fuel`;
`junk` is the indeterminate content of `c->next` after each `malloc`. The list
holds, for each `queue_deq` in order, its return value and the content of
`result` after it. -/
def run (fuel : Nat) (junk : pointer) : queue → Nat → List Op →
    Outcome (List (Nat × Nat) × queue)
  | q, _, [] => .ret ([], q)
  | q, result, Op.enq x :: ops =>
    match queue_enq fuel q x junk with
    | .ret q1 => run fuel junk q1 result ops
    | .ub => .ub
    | .nofuel => .nofuel
  | q, result, Op.deq :: ops =>
    match queue_deq fuel q result with
    | .ret (r, result1, q1) =>
      match run fuel junk q1 result1 ops with
      | .ret (rs, q2) => .ret ((r, result1) :: rs, q2)
      | .ub => .ub
      | .nofuel => .nofuel
    | .ub => .ub
    | .nofuel => .nofuel

/-- State of a queue after at most `N` calls: `head` is the dummy cell with tag
0, the cell behind `head` is allocated unless `head` is `tail`, `tail`
designates a cell without successor, no tag exceeds `N + 1`, and no block of
the heap has been freed. -/
def Untouched (q : queue) (N : Nat) : Prop :=
  q.head = ⟨1, 0⟩ ∧
  (∃ h, Mem.load q.heap q.head.ptr = some h ∧
    (q.head.ptr ≠ q.tail.ptr → ∃ n, Mem.load q.heap h.next.ptr = some n)) ∧
  (∃ t, Mem.load q.heap q.tail.ptr = some t ∧ t.next.ptr = 0) ∧
  q.tail.tag ≤ N ∧
  (∀ a c, Mem.load q.heap a = some c → c.next.tag ≤ N + 1) ∧
  (∀ o ∈ q.heap, o ≠ none)

/-- Macro `TC` of `tests/queue.c`: the number of threads `main` starts. -/
def TC : Nat := 4

/-- Macro `LE` of `tests/queue.c`: the number of values per thread. -/
def LE : Nat := 5

/-- The calls `thread_func` of `tests/queue.c` makes for thread number `t`:
`queue_enq` of the values `LE * t, ..., LE * (t + 1) - 1` in this order, then
`LE` calls of `queue_deq`. -/
def thread_func (t : Nat) : List Op :=
  (List.range' (LE * t) LE).map Op.enq ++ List.replicate LE Op.deq

/-- The execution of `main` of `tests/queue.c` in which the `TC` threads run one
after the other, thread 0 first: every thread finishes `thread_func` before
the next one starts. -/
def serial_schedule : List Op :=
  thread_func 0 ++ thread_func 1 ++ thread_func 2 ++ thread_func 3

/-- The values the calls `ops` enqueue, in call order. -/
def enq_values : List Op → List Nat
  | [] => []
  | Op.enq x :: ops => x :: enq_values ops
  | Op.deq :: ops => enq_values ops

end Basket

/-! ## Facts about the allocator -/

namespace Mem

theorem free_index_getD {α : Type} (h : List (Option α)) :
    h.getD (free_index h) none = none := by
  induction h with
  | nil => rfl
  | cons x t ih =>
    cases x with
    | none => rfl
    | some v => simpa [free_index] using ih

theorem malloc_ne_zero {α : Type} (h : List (Option α)) : malloc h ≠ 0 := by
  simp [malloc]

theorem load_malloc {α : Type} (h : List (Option α)) : load h (malloc h) = none := by
  simpa [load, malloc, List.getD_eq_getElem?_getD] using free_index_getD h

theorem load_zero {α : Type} (h : List (Option α)) : load h 0 = none := by
  simp [load]

theorem load_write_same {α : Type} (h : List (Option α)) (a : Nat) (v : Option α)
    (ha : a ≠ 0) : load (write h a v) a = v := by
  simp only [load, write, ha, if_false]
  by_cases hlt : a - 1 < h.length
  · simp [hlt, List.getD_eq_getElem?_getD, List.getElem?_set]
  · have hle : h.length ≤ a - 1 := by omega
    simp [hlt, List.getD_eq_getElem?_getD, List.getElem?_append, hle]

theorem load_write_ne {α : Type} (h : List (Option α)) (a b : Nat) (v : Option α)
    (hab : b ≠ a) : load (write h a v) b = load h b := by
  by_cases ha : a = 0
  · simp [write, ha]
  by_cases hb : b = 0
  · simp [load, hb]
  have hidx : a - 1 ≠ b - 1 := by omega
  simp only [load, write, ha, hb, if_false]
  by_cases hlt : a - 1 < h.length
  · simp [hlt, List.getD_eq_getElem?_getD, List.getElem?_set, hidx]
  · simp only [hlt, if_false, List.getD_eq_getElem?_getD]
    by_cases h1 : b - 1 < h.length
    · simp [List.getElem?_append, h1]
    · have h2 : h.length ≤ b - 1 := by omega
      rw [List.getElem?_eq_none h2]
      by_cases h3 : b - 1 < h.length + (a - 1 - h.length)
      · have : b - 1 - h.length < a - 1 - h.length := by omega
        simp [List.getElem?_append, h1, h3, List.getElem?_replicate, this]
      · have : (h ++ List.replicate (a - 1 - h.length) none ++ [v])[b - 1]? = none := by
          apply List.getElem?_eq_none
          simp
          omega
        rw [this]

end Mem

/-! ## Bounded queue: construction, divergence at small capacities, back-off -/

namespace BQ

theorem set_state_some (ns : List option) (i s : Nat) (h : i < ns.length) :
    set_state ns i s = some (ns.set i ⟨(ns.get ⟨i, h⟩).data, s⟩) := by
  unfold set_state
  have : ns[i]? = some (ns.get ⟨i, h⟩) := by
    simp [List.getElem?_eq_getElem h]
  rw [this]

theorem set_state_none (ns : List option) (i s : Nat) (h : ns.length ≤ i) :
    set_state ns i s = none := by
  unfold set_state
  rw [List.getElem?_eq_none h]

theorem set_state_spec (ns ns1 : List option) (i s : Nat) (h : set_state ns i s = some ns1) :
    i < ns.length ∧ ns1.length = ns.length ∧
    ∀ j, ns1[j]? = if j = i then (ns[i]?).map (fun o => { o with state := s }) else ns[j]? := by
  by_cases hi : i < ns.length
  · rw [set_state_some ns i s hi] at h
    have h1 := Option.some.inj h
    subst h1
    refine ⟨hi, by simp, ?_⟩
    intro j
    by_cases hj : j = i
    · subst hj
      simp [List.getElem?_set, hi, List.getElem?_eq_getElem hi]
    · have : i ≠ j := fun e => hj e.symm
      simp [List.getElem?_set, hj, this]
  · rw [set_state_none ns i s (by omega)] at h
    simp at h

theorem init_loop_spec (k : Nat) : ∀ (i : Nat) (ns : List option), i + k ≤ ns.length →
    ∃ ns1, init_loop k i ns = some ns1 ∧ ns1.length = ns.length ∧
      ∀ j, ns1[j]? =
        if i ≤ j ∧ j < i + k then (ns[j]?).map (fun o => { o with state := NULL_B })
        else ns[j]? := by
  induction k with
  | zero =>
    intro i ns _
    refine ⟨ns, rfl, rfl, ?_⟩
    intro j
    have : ¬ (i ≤ j ∧ j < i) := by omega
    simp [this]
  | succ k ih =>
    intro i ns hle
    have hi : i < ns.length := by omega
    have hs := set_state_some ns i NULL_B hi
    obtain ⟨_, hlen, hget⟩ := set_state_spec _ _ _ _ hs
    obtain ⟨ns2, h2, hlen2, hget2⟩ := ih (i + 1) (ns.set i ⟨(ns.get ⟨i, hi⟩).data, NULL_B⟩)
      (by rw [hlen]; omega)
    refine ⟨ns2, ?_, by rw [hlen2, hlen], ?_⟩
    · rw [init_loop, hs]
      exact h2
    · intro j
      rw [hget2 j, hget j]
      by_cases h1 : j = i
      · subst h1
        have a : ¬ (j + 1 ≤ j ∧ j < j + 1 + k) := by omega
        have b : (j ≤ j ∧ j < j + (k + 1)) := by omega
        simp [a, b]
      · by_cases h2 : i + 1 ≤ j ∧ j < i + 1 + k
        · have b : (i ≤ j ∧ j < i + (k + 1)) := by omega
          simp [h1, h2, b]
        · have b : ¬ (i ≤ j ∧ j < i + (k + 1)) := by omega
          simp [h1, h2, b]

theorem init_loop_none (k : Nat) : ∀ (i : Nat) (ns : List option), 0 < k →
    ns.length < i + k → init_loop k i ns = none := by
  induction k with
  | zero => intro i ns h0 _; exact absurd h0 (by decide)
  | succ k ih =>
    intro i ns _ hlt
    by_cases hi : i < ns.length
    · have hs := set_state_some ns i NULL_B hi
      obtain ⟨_, hlen, _⟩ := set_state_spec _ _ _ _ hs
      rw [init_loop, hs]
      exact ih (i + 1) _ (by omega) (by rw [hlen]; omega)
    · rw [init_loop, set_state_none ns i NULL_B (by omega)]

/-- What `new_bqueue(c)` does: when the byte count `(c + 1) * 16` fits `size_t`
it returns the queue with `c + 1` slots, slot 0 in state `NULL_A` and the
others in state `NULL_B`, all with the data they held; otherwise it writes
outside the array it asked for. -/
theorem new_bqueue_eq (c : Nat) (junk : Nat → option) :
    new_bqueue c junk =
      if (c + 1) * 16 < 2 ^ 64 then
        .ret ⟨c, 0, 1, (List.range (c + 1)).map
          (fun i => ⟨(junk i).data, if i = 0 then NULL_A else NULL_B⟩)⟩
      else .ub := by
  by_cases hb : (c + 1) * 16 < 2 ^ 64
  · have hslots : ((c + 1) % 2 ^ 64 * 16) % 2 ^ 64 / 16 = c + 1 := by
      have h1 : (c + 1) % 2 ^ 64 = c + 1 := Nat.mod_eq_of_lt (by omega)
      rw [h1, Nat.mod_eq_of_lt hb]
      omega
    obtain ⟨ns1, h1, hlen1, hget1⟩ := init_loop_spec c 1 ((List.range (c + 1)).map junk)
      (by simp; omega)
    have h0 : 0 < ns1.length := by rw [hlen1]; simp
    have hs := set_state_some ns1 0 NULL_A h0
    obtain ⟨_, hlen2, hget2⟩ := set_state_spec _ _ _ _ hs
    simp only [new_bqueue, hslots, h1, hs, if_pos hb]
    congr 2
    apply List.ext_getElem?
    intro j
    rw [hget2 j]
    by_cases hj0 : j = 0
    · subst hj0
      rw [hget1 0]
      simp
    · simp only [hj0, if_false]
      rw [hget1 j]
      by_cases hjc : j < c + 1
      · have a : (1 ≤ j ∧ j < 1 + c) := by omega
        simp [hj0, a, hjc, List.getElem?_range]
      · have a : ¬ (1 ≤ j ∧ j < 1 + c) := by omega
        have b : (List.range (c + 1))[j]? = none :=
          List.getElem?_eq_none (by simp; omega)
        simp [hj0, a, b]
  · have hlt : ((c + 1) % 2 ^ 64 * 16) % 2 ^ 64 / 16 < 2 ^ 60 := by
      have := Nat.mod_lt ((c + 1) % 2 ^ 64 * 16) (show 0 < 2 ^ 64 by decide)
      omega
    have hc : 2 ^ 60 ≤ c + 1 := by omega
    have hnone := init_loop_none c 1
      ((List.range (((c + 1) % 2 ^ 64 * 16) % 2 ^ 64 / 16)).map junk) (by omega)
      (by simp; omega)
    simp only [new_bqueue, hnone, if_neg hb]

theorem new_bqueue_ret (c : Nat) (junk : Nat → option) (q : bqueue)
    (h : new_bqueue c junk = .ret q) :
    (c + 1) * 16 < 2 ^ 64 ∧
    q = ⟨c, 0, 1, (List.range (c + 1)).map
      (fun i => ⟨(junk i).data, if i = 0 then NULL_A else NULL_B⟩)⟩ := by
  rw [new_bqueue_eq] at h
  split at h
  · rename_i hb
    exact ⟨hb, (Outcome.ret.inj h).symm⟩
  · simp at h

theorem new_bqueue_nodes_getElem? (c : Nat) (junk : Nat → option) (j : Nat) :
    ((List.range (c + 1)).map
      (fun i => (⟨(junk i).data, if i = 0 then NULL_A else NULL_B⟩ : option)))[j]? =
      if j = 0 then some ⟨(junk 0).data, NULL_A⟩
      else if j ≤ c then some ⟨(junk j).data, NULL_B⟩ else none := by
  by_cases h0 : j = 0
  · subst h0; simp
  · by_cases h1 : j ≤ c
    · have b : j < c + 1 := by omega
      simp [h0, h1, b, List.getElem?_range]
    · have b2 : c + 1 ≤ j := by omega
      simp [h0, h1, b2]

theorem new_bqueue_one (junk : Nat → option) :
    new_bqueue 1 junk = .ret ⟨1, 0, 1, [⟨(junk 0).data, NULL_A⟩, ⟨(junk 1).data, NULL_B⟩]⟩ := rfl

theorem new_bqueue_two (junk : Nat → option) :
    new_bqueue 2 junk = .ret ⟨2, 0, 1, [⟨(junk 0).data, NULL_A⟩, ⟨(junk 1).data, NULL_B⟩,
      ⟨(junk 2).data, NULL_B⟩]⟩ := rfl

theorem new_bqueue_three (junk : Nat → option) :
    new_bqueue 3 junk = .ret ⟨3, 0, 1, [⟨(junk 0).data, NULL_A⟩, ⟨(junk 1).data, NULL_B⟩,
      ⟨(junk 2).data, NULL_B⟩, ⟨(junk 3).data, NULL_B⟩]⟩ := rfl

theorem new_bqueue_zero (junk : Nat → option) :
    new_bqueue 0 junk = .ret ⟨0, 0, 1, [⟨(junk 0).data, NULL_A⟩]⟩ := rfl

theorem deq_walk_one_stuck (fuel d0 d1 : Nat) :
    deq_walk fuel ⟨1, 0, 1, [⟨d0, NULL_A⟩, ⟨d1, NULL_B⟩]⟩ 0 ⟨d0, NULL_A⟩ 0 = .nofuel := by
  induction fuel with
  | zero => rfl
  | succ n ih =>
    rw [deq_walk]
    simpa [VALID, NULL_A] using ih

theorem enq_one_stuck (fuel d0 d1 data : Nat) :
    bqueue_enq fuel ⟨1, 0, 1, [⟨d0, NULL_A⟩, ⟨d1, NULL_B⟩]⟩ data = .nofuel := by
  induction fuel with
  | zero => rfl
  | succ n ih =>
    rw [bqueue_enq]
    simpa [enq_walk, VALID, NULL_A, NULL_B, CAS_head] using ih

/-- With `head = tail = 2` and only slot 2 occupied the enqueue reads slot 0 and
tries to swap slot 1, whose phase differs: every iteration fails the same way. -/
theorem enq_three_stuck (fuel d0 d1 a d3 data : Nat) :
    bqueue_enq fuel ⟨3, 2, 2, [⟨d0, NULL_A⟩, ⟨d1, NULL_B⟩, ⟨a, VALID_A⟩, ⟨d3, NULL_B⟩]⟩ data
      = .nofuel := by
  induction fuel with
  | zero => rfl
  | succ n ih =>
    cases n with
    | zero => simp [bqueue_enq, enq_walk, VALID, VALID_A]
    | succ m =>
      rw [bqueue_enq]
      simpa [enq_walk, VALID, NULLTYPE, NULL_A, NULL_B, VALID_A, VALID_B, CAS2] using ih

theorem enq_three_head_one (fuel d0 d1 a d3 data : Nat) :
    bqueue_enq fuel ⟨3, 1, 2, [⟨d0, NULL_A⟩, ⟨d1, NULL_B⟩, ⟨a, VALID_A⟩, ⟨d3, NULL_B⟩]⟩ data
      = .nofuel := by
  cases fuel with
  | zero => rfl
  | succ n =>
    cases n with
    | zero => simp [bqueue_enq, enq_walk, VALID, VALID_A]
    | succ m =>
      rw [bqueue_enq]
      simpa [enq_walk, VALID, NULLTYPE, NULL_A, NULL_B, VALID_A, VALID_B, CAS_head]
        using enq_three_stuck (m + 1) d0 d1 a d3 data

theorem enq_three_head_zero (fuel d0 d1 a d3 data : Nat) :
    bqueue_enq fuel ⟨3, 0, 2, [⟨d0, NULL_A⟩, ⟨d1, NULL_B⟩, ⟨a, VALID_A⟩, ⟨d3, NULL_B⟩]⟩ data
      = .nofuel := by
  cases fuel with
  | zero => rfl
  | succ n =>
    rw [bqueue_enq]
    simpa [enq_walk, VALID, NULLTYPE, NULL_A, NULL_B, VALID_A, VALID_B, CAS_head]
      using enq_three_head_one n d0 d1 a d3 data

theorem enq_three_first (fuel d0 d1 d2 d3 data : Nat) :
    bqueue_enq fuel ⟨3, 0, 1, [⟨d0, NULL_A⟩, ⟨d1, NULL_B⟩, ⟨d2, NULL_B⟩, ⟨d3, NULL_B⟩]⟩ data
      = .nofuel ∨
    bqueue_enq fuel ⟨3, 0, 1, [⟨d0, NULL_A⟩, ⟨d1, NULL_B⟩, ⟨d2, NULL_B⟩, ⟨d3, NULL_B⟩]⟩ data
      = .ret (1, ⟨3, 0, 2, [⟨d0, NULL_A⟩, ⟨d1, NULL_B⟩, ⟨data, VALID_A⟩, ⟨d3, NULL_B⟩]⟩) := by
  induction fuel with
  | zero => left; rfl
  | succ n ih =>
    by_cases h : d2 = d1
    · right
      subst h
      simp [bqueue_enq, enq_walk, VALID, NULLTYPE, NULL_A, NULL_B, VALID_A, VALID_B, CAS2, CAS_tail]
    · rcases ih with ih | ih
      · left
        rw [bqueue_enq]
        simpa [enq_walk, VALID, NULLTYPE, NULL_A, NULL_B, VALID_A, VALID_B, CAS2, h] using ih
      · right
        rw [bqueue_enq]
        simpa [enq_walk, VALID, NULLTYPE, NULL_A, NULL_B, VALID_A, VALID_B, CAS2, h] using ih

/-- C8 (counterexample): for the capacity `c = 2^60 - 1` the byte count
`(c + 1) * sizeof(option)` is `2^64`, which is 0 in `size_t`: the array has no
slot, the first write of the constructor falls outside it, and `new_bqueue(c)`
returns no queue. -/
theorem new_bqueue_byte_count_wraps :
    1 ≤ 2 ^ 60 - 1 ∧ new_bqueue (2 ^ 60 - 1) (fun _ => ⟨0, 0⟩) = .ub := by
  refine ⟨by decide, ?_⟩
  rw [new_bqueue_eq]
  exact if_neg (by decide)

/-- C8 (amended): for every capacity `c >= 1` whose byte count
`(c + 1) * sizeof(option)` fits `size_t`, `new_bqueue(c)` returns a queue with
`max = c`, an array of `c + 1` slots, `head = 0`, `tail = 1`, slot 0 in state
`NULL_A`, every slot `i` with `1 <= i <= c` in state `NULL_B`, and no slot is
`VALID`. -/
theorem new_bqueue_initial_state (c : Nat) (junk : Nat → option) (_hc : 1 ≤ c)
    (hb : (c + 1) * 16 < 2 ^ 64) :
    ∃ q, new_bqueue c junk = .ret q ∧
      q.max = c ∧
      q.nodes.length = c + 1 ∧
      q.head = 0 ∧
      q.tail = 1 ∧
      (q.nodes[0]?).map option.state = some NULL_A ∧
      (∀ i, 1 ≤ i → i ≤ c → (q.nodes[i]?).map option.state = some NULL_B) ∧
      (∀ o ∈ q.nodes, VALID o.state = 0) := by
  refine ⟨_, by rw [new_bqueue_eq, if_pos hb], rfl, by simp, rfl, rfl, ?_, ?_, ?_⟩
  · show Option.map option.state (((List.range (c + 1)).map
      (fun i => (⟨(junk i).data, if i = 0 then NULL_A else NULL_B⟩ : option)))[0]?) = _
    rw [new_bqueue_nodes_getElem?]
    simp
  · intro i h1 h2
    have h0 : i ≠ 0 := by omega
    show Option.map option.state (((List.range (c + 1)).map
      (fun i => (⟨(junk i).data, if i = 0 then NULL_A else NULL_B⟩ : option)))[i]?) = _
    rw [new_bqueue_nodes_getElem?]
    simp [h0, h2]
  · intro o ho
    rcases List.getElem?_of_mem ho with ⟨j, hj⟩
    simp only [] at hj
    rw [new_bqueue_nodes_getElem?] at hj
    by_cases h0 : j = 0
    · simp [h0] at hj
      subst hj
      simp [VALID, NULL_A]
    · by_cases h1 : j ≤ c
      · simp [h0, h1] at hj
        subst hj
        simp [VALID, NULL_B]
      · simp [h0, h1] at hj

/-- C8 at capacity 3 on memory that held `(7, 9)` in every slot. -/
theorem new_bqueue_initial_state_witness :
    1 ≤ 3 ∧ (3 + 1) * 16 < 2 ^ 64 ∧
    ∃ q, new_bqueue 3 (fun _ => ⟨7, 9⟩) = .ret q ∧ q.max = 3 ∧ q.nodes.length = 3 + 1 :=
  ⟨by decide, by decide,
    (new_bqueue_initial_state 3 (fun _ => ⟨7, 9⟩) (by decide) (by decide)).elim
      (fun q hq => ⟨q, hq.1, hq.2.1, hq.2.2.1⟩)⟩

/-- C7 (counterexample): `new_bqueue(0)` is not rejected. On zeroed memory it
returns a queue with `max = 0`, and the first `bqueue_enq` or `bqueue_deq` on
that queue runs into undefined behaviour. -/
theorem new_bqueue_zero_not_rejected :
    new_bqueue 0 (fun _ => ⟨0, 0⟩) = .ret ⟨0, 0, 1, [⟨0, NULL_A⟩]⟩ ∧
    bqueue_enq 1 ⟨0, 0, 1, [⟨0, NULL_A⟩]⟩ 7 = .ub ∧
    bqueue_deq 1 ⟨0, 0, 1, [⟨0, NULL_A⟩]⟩ 7 = .ub := by
  decide

/-- C7 (amended): `new_bqueue(0)` checks nothing: it returns a queue with
`max = 0`, `head = 0`, `tail = 1` and the single slot 0 in state `NULL_A`, and
every later `bqueue_enq` / `bqueue_deq` on it is undefined (an access to slot 1
outside the array, a remainder modulo 0). -/
theorem new_bqueue_zero_unchecked (junk : Nat → option) (fuel data result : Nat) :
    new_bqueue 0 junk = .ret ⟨0, 0, 1, [⟨(junk 0).data, NULL_A⟩]⟩ ∧
    bqueue_enq (fuel + 1) ⟨0, 0, 1, [⟨(junk 0).data, NULL_A⟩]⟩ data = .ub ∧
    bqueue_deq (fuel + 1) ⟨0, 0, 1, [⟨(junk 0).data, NULL_A⟩]⟩ result = .ub := by
  refine ⟨rfl, ?_, ?_⟩
  · simp [bqueue_enq]
  · simp [bqueue_deq]

/-- For capacities from 2 on a dequeue on the fresh queue returns 0 and changes
nothing. -/
theorem bqueue_deq_fresh (c : Nat) (junk : Nat → option) (fuel result : Nat) (hc : 2 ≤ c)
    (hb : (c + 1) * 16 < 2 ^ 64) :
    ∃ q, new_bqueue c junk = .ret q ∧ bqueue_deq (fuel + 1) q result = .ret (0, result, q) := by
  refine ⟨_, by rw [new_bqueue_eq, if_pos hb], ?_⟩
  have h1 : ((List.range (c + 1)).map
      (fun i => (⟨(junk i).data, if i = 0 then NULL_A else NULL_B⟩ : option)))[1]?
      = some ⟨(junk 1).data, NULL_B⟩ := by
    have : 1 ≤ c := by omega
    rw [new_bqueue_nodes_getElem?]
    simp [this]
  have hmod : 1 % c = 1 := Nat.mod_eq_of_lt (by omega)
  have hc0 : c ≠ 0 := by omega
  generalize (List.range (c + 1)).map
    (fun i => (⟨(junk i).data, if i = 0 then NULL_A else NULL_B⟩ : option)) = ns at h1
  rw [bqueue_deq]
  simp only [Nat.zero_add, hmod, hc0, h1, deq_walk]
  simp [VALID, NULL_B]

theorem bqueue_enq_ret_zero_or_one (fuel : Nat) (q : bqueue) (data r : Nat) (q1 : bqueue)
    (h : bqueue_enq fuel q data = .ret (r, q1)) : r = 0 ∨ r = 1 := by
  induction fuel generalizing q with
  | zero => simp [bqueue_enq] at h
  | succ n ih =>
    rw [bqueue_enq] at h
    simp only [] at h
    repeat' split at h
    all_goals first
      | exact ih _ h
      | (simp at h; done)
      | (simp at h; exact Or.inl h.1.symm)
      | (simp at h; exact Or.inr h.1.symm)

/-- The clamped wait of the sleep number `i`, in nanoseconds. -/
theorem backoff_step (n wait : Nat) (hw : wait = min (2 ^ (n + 1)) 256) :
    (if wait > 128 then 128 else wait) = min (2 ^ (n + 1)) 128 ∧
    (if wait > 128 then 128 else wait) * 2 = min (2 ^ (n + 1 + 1)) 256 := by
  have hp : 2 ^ (n + 1 + 1) = 2 * 2 ^ (n + 1) := by ring
  rw [hp]
  generalize 2 ^ (n + 1) = p at *
  subst hw
  constructor
  · split <;> omega
  · split <;> omega

theorem enq_repeat_loop_sleeps (enqfuel : Nat) (env : Nat → bqueue → bqueue) (data : Nat)
    (k : Nat) : ∀ (fuel n wait : Nat) (q q1 : bqueue),
    wait = min (2 ^ (n + 1)) 256 →
    enq_fails_then_succeeds enqfuel env data k n q q1 → k < fuel →
    enq_repeat_loop enqfuel env data fuel n wait q =
      .ret (q1, (List.range' (n + 1) k).map (fun i => min (2 ^ i) 128 * 1000)) := by
  induction k with
  | zero =>
    intro fuel n wait q q1 _ h hf
    obtain ⟨f, rfl⟩ : ∃ f, fuel = f + 1 := ⟨fuel - 1, by omega⟩
    simp only [enq_fails_then_succeeds] at h
    simp [enq_repeat_loop, h]
  | succ k ih =>
    intro fuel n wait q q1 hw h hf
    obtain ⟨f, rfl⟩ : ∃ f, fuel = f + 1 := ⟨fuel - 1, by omega⟩
    simp only [enq_fails_then_succeeds] at h
    obtain ⟨q0, h0, hrest⟩ := h
    obtain ⟨hs1, hs2⟩ := backoff_step n wait hw
    have := ih f (n + 1) ((if wait > 128 then 128 else wait) * 2) (env n q0) q1 hs2 hrest
      (by omega)
    rw [hs1] at this
    simp only [enq_repeat_loop, h0]
    simp [hs1, this, List.range']

theorem enq_repeat_loop_returns (enqfuel : Nat) (env : Nat → bqueue → bqueue) (data : Nat)
    (fuel : Nat) : ∀ (n wait : Nat) (q q1 : bqueue) (sleeps : List Nat),
    enq_repeat_loop enqfuel env data fuel n wait q = .ret (q1, sleeps) →
    enq_fails_then_succeeds enqfuel env data sleeps.length n q q1 := by
  induction fuel with
  | zero => intro n wait q q1 sleeps h; simp [enq_repeat_loop] at h
  | succ f ih =>
    intro n wait q q1 sleeps h
    rw [enq_repeat_loop] at h
    split at h
    · simp at h
    · simp at h
    · rename_i r q0 hr
      split at h
      · rename_i hr0
        simp at h
        obtain ⟨rfl, rfl⟩ := h
        rcases bqueue_enq_ret_zero_or_one _ _ _ _ _ hr with h01 | h01
        · exact absurd h01 hr0
        · subst h01
          simpa [enq_fails_then_succeeds] using hr
      · rename_i hr0
        have hr0 : r = 0 := by simpa using hr0
        subst hr0
        simp only [] at h
        split at h
        · rename_i q2 sl hrec
          simp at h
          obtain ⟨rfl, rfl⟩ := h
          have := ih _ _ _ _ _ hrec
          simp only [List.length_cons, enq_fails_then_succeeds]
          exact ⟨q0, hr, this⟩
        · simp at h
        · simp at h

/-- C3 (code at the failing input): on `new_bqueue(3)` the scenario of the claim
cannot get past its second call. Whatever the array held before construction,
the first `bqueue_enq` either never returns or returns 1 with the value in slot
2, and the second `bqueue_enq` then never returns: no loop budget `f2` is
enough. On zeroed memory the first call does return 1. -/
theorem bqueue_capacity_three_second_enq_diverges (junk : Nat → option) (A B f1 f2 : Nat) :
    new_bqueue 3 junk = .ret ⟨3, 0, 1, [⟨(junk 0).data, NULL_A⟩, ⟨(junk 1).data, NULL_B⟩,
      ⟨(junk 2).data, NULL_B⟩, ⟨(junk 3).data, NULL_B⟩]⟩ ∧
    (bqueue_enq f1 ⟨3, 0, 1, [⟨(junk 0).data, NULL_A⟩, ⟨(junk 1).data, NULL_B⟩,
        ⟨(junk 2).data, NULL_B⟩, ⟨(junk 3).data, NULL_B⟩]⟩ A = .nofuel ∨
      (bqueue_enq f1 ⟨3, 0, 1, [⟨(junk 0).data, NULL_A⟩, ⟨(junk 1).data, NULL_B⟩,
          ⟨(junk 2).data, NULL_B⟩, ⟨(junk 3).data, NULL_B⟩]⟩ A
          = .ret (1, ⟨3, 0, 2, [⟨(junk 0).data, NULL_A⟩,
            ⟨(junk 1).data, NULL_B⟩, ⟨A, VALID_A⟩, ⟨(junk 3).data, NULL_B⟩]⟩) ∧
        bqueue_enq f2 ⟨3, 0, 2, [⟨(junk 0).data, NULL_A⟩,
          ⟨(junk 1).data, NULL_B⟩, ⟨A, VALID_A⟩, ⟨(junk 3).data, NULL_B⟩]⟩ B = .nofuel)) ∧
    new_bqueue 3 (fun _ => ⟨0, 0⟩)
      = .ret ⟨3, 0, 1, [⟨0, NULL_A⟩, ⟨0, NULL_B⟩, ⟨0, NULL_B⟩, ⟨0, NULL_B⟩]⟩ ∧
    bqueue_enq (f1 + 1) ⟨3, 0, 1, [⟨0, NULL_A⟩, ⟨0, NULL_B⟩, ⟨0, NULL_B⟩, ⟨0, NULL_B⟩]⟩ A
      = .ret (1, ⟨3, 0, 2, [⟨0, NULL_A⟩, ⟨0, NULL_B⟩, ⟨A, VALID_A⟩, ⟨0, NULL_B⟩]⟩) := by
  refine ⟨rfl, ?_, rfl, ?_⟩
  · rcases enq_three_first f1 (junk 0).data (junk 1).data (junk 2).data (junk 3).data A
      with h | h
    · exact Or.inl h
    · exact Or.inr ⟨h, enq_three_head_zero f2 _ _ _ _ _⟩
  · simp [bqueue_enq, enq_walk, VALID, NULLTYPE, NULL_A, NULL_B, VALID_A, VALID_B, CAS2, CAS_tail]

/-- C5 (code at the failing input): on the queue `new_bqueue(1)` returns the call
`bqueue_deq` never returns, whatever the loop budget: every index is reduced
modulo 1 to 0 while `tail` is 1, so the inner loop neither finds a `VALID` slot
nor meets `new_head == q->tail`. -/
theorem bqueue_deq_capacity_one_diverges (fuel : Nat) (junk : Nat → option) (result : Nat) :
    new_bqueue 1 junk = .ret ⟨1, 0, 1, [⟨(junk 0).data, NULL_A⟩, ⟨(junk 1).data, NULL_B⟩]⟩ ∧
    bqueue_deq fuel ⟨1, 0, 1, [⟨(junk 0).data, NULL_A⟩, ⟨(junk 1).data, NULL_B⟩]⟩ result
      = .nofuel := by
  refine ⟨rfl, ?_⟩
  cases fuel with
  | zero => rfl
  | succ n =>
    rw [bqueue_deq]
    simp [deq_walk_one_stuck]

/-- C6 (code at the failing input): on the queue `new_bqueue(1)` returns the first
`bqueue_enq` never returns, whatever the loop budget: `new_tail` is always 0,
which is `head`, slot 0 is not `VALID`, and the helping `CAS` moves `head` from
0 to 0. -/
theorem bqueue_enq_capacity_one_diverges (fuel : Nat) (junk : Nat → option) (x : Nat) :
    new_bqueue 1 junk = .ret ⟨1, 0, 1, [⟨(junk 0).data, NULL_A⟩, ⟨(junk 1).data, NULL_B⟩]⟩ ∧
    bqueue_enq fuel ⟨1, 0, 1, [⟨(junk 0).data, NULL_A⟩, ⟨(junk 1).data, NULL_B⟩]⟩ x
      = .nofuel :=
  ⟨rfl, enq_one_stuck fuel _ _ x⟩

/-- C9: if `bqueue_enq` fails exactly `k` times before succeeding, then
`bqueue_enq_repeat` returns, having slept exactly `k` times, the `i`-th time
(`i = 1..k`) for `min(2^i, 128) * 1000` nanoseconds; and whenever it returns,
the attempts before the last one returned 0 and the last one returned 1. -/
theorem bqueue_enq_repeat_backoff (enqfuel fuel : Nat) (env : Nat → bqueue → bqueue)
    (q q1 : bqueue) (data k : Nat)
    (h : enq_fails_then_succeeds enqfuel env data k 0 q q1) (hf : k < fuel) :
    bqueue_enq_repeat enqfuel fuel env q data =
      .ret (q1, (List.range' 1 k).map (fun i => min (2 ^ i) 128 * 1000)) ∧
    (∀ i ∈ List.range' 1 k, min (2 ^ i) 128 * 1000 ≤ 128 * 1000) ∧
    (∀ f q2 sleeps, bqueue_enq_repeat enqfuel f env q data = .ret (q2, sleeps) →
      enq_fails_then_succeeds enqfuel env data sleeps.length 0 q q2) := by
  refine ⟨?_, ?_, ?_⟩
  · exact enq_repeat_loop_sleeps enqfuel env data k fuel 0 2 q q1 (by decide) h hf
  · intro i _
    exact Nat.mul_le_mul_right _ (Nat.min_le_right _ _)
  · intro f q2 sleeps hr
    exact enq_repeat_loop_returns enqfuel env data f 0 2 q q2 sleeps hr

/-- C9 with one failed attempt: the queue looks full, the other threads replace
it by the fresh queue of capacity 4 during the first sleep, and the single
sleep lasts `2 * 1000` nanoseconds. -/
theorem bqueue_enq_repeat_backoff_witness :
    enq_fails_then_succeeds 2
      (fun _ _ => ⟨4, 0, 1, [⟨0, NULL_A⟩, ⟨0, NULL_B⟩, ⟨0, NULL_B⟩, ⟨0, NULL_B⟩, ⟨0, NULL_B⟩]⟩)
      7 1 0 ⟨2, 0, 1, [⟨5, VALID_A⟩, ⟨6, VALID_A⟩]⟩
      ⟨4, 0, 2, [⟨0, NULL_A⟩, ⟨0, NULL_B⟩, ⟨7, VALID_A⟩, ⟨0, NULL_B⟩, ⟨0, NULL_B⟩]⟩ ∧
    1 < 2 ∧
    bqueue_enq_repeat 2 2
      (fun _ _ => ⟨4, 0, 1, [⟨0, NULL_A⟩, ⟨0, NULL_B⟩, ⟨0, NULL_B⟩, ⟨0, NULL_B⟩, ⟨0, NULL_B⟩]⟩)
      ⟨2, 0, 1, [⟨5, VALID_A⟩, ⟨6, VALID_A⟩]⟩ 7 =
      .ret (⟨4, 0, 2, [⟨0, NULL_A⟩, ⟨0, NULL_B⟩, ⟨7, VALID_A⟩, ⟨0, NULL_B⟩, ⟨0, NULL_B⟩]⟩,
        (List.range' 1 1).map (fun i => min (2 ^ i) 128 * 1000)) :=
  have h : enq_fails_then_succeeds 2
      (fun _ _ => ⟨4, 0, 1, [⟨0, NULL_A⟩, ⟨0, NULL_B⟩, ⟨0, NULL_B⟩, ⟨0, NULL_B⟩, ⟨0, NULL_B⟩]⟩)
      7 1 0 ⟨2, 0, 1, [⟨5, VALID_A⟩, ⟨6, VALID_A⟩]⟩
      ⟨4, 0, 2, [⟨0, NULL_A⟩, ⟨0, NULL_B⟩, ⟨7, VALID_A⟩, ⟨0, NULL_B⟩, ⟨0, NULL_B⟩]⟩ :=
    ⟨⟨2, 0, 1, [⟨5, VALID_A⟩, ⟨6, VALID_A⟩]⟩, by decide,
      show bqueue_enq 2
        ⟨4, 0, 1, [⟨0, NULL_A⟩, ⟨0, NULL_B⟩, ⟨0, NULL_B⟩, ⟨0, NULL_B⟩, ⟨0, NULL_B⟩]⟩ 7
          = .ret (1, _) by decide⟩
  ⟨h, by decide, (bqueue_enq_repeat_backoff 2 2 _ _ _ 7 1 h (by decide)).1⟩

end BQ

/-! ## Michael-Scott queue: the queue is a FIFO -/

namespace MS

theorem Linked_load_head {h : List (Option cell)} {a d : Nat} {cells : List (Nat × Nat)}
    (hl : Linked h a d cells) : ∃ n, Mem.load h a = some ⟨n, d⟩ := by
  cases cells with
  | nil => exact ⟨0, hl⟩
  | cons p rest => exact ⟨p.1, hl.1⟩

theorem Linked_allocated {h : List (Option cell)} {cells : List (Nat × Nat)} :
    ∀ {a d : Nat}, Linked h a d cells →
      ∀ b ∈ a :: cells.map Prod.fst, ∃ c, Mem.load h b = some c := by
  induction cells with
  | nil =>
    intro a d hl b hb
    simp at hb
    subst hb
    exact ⟨_, hl⟩
  | cons p rest ih =>
    intro a d hl b hb
    obtain ⟨h1, _, h3⟩ := hl
    rcases List.mem_cons.mp hb with rfl | hb
    · exact ⟨_, h1⟩
    · exact ih h3 b (by simpa using hb)

theorem Linked_frame {h : List (Option cell)} {cells : List (Nat × Nat)} (w : Nat)
    (v : Option cell) :
    ∀ {a d : Nat}, Linked h a d cells → w ∉ a :: cells.map Prod.fst →
      Linked (Mem.write h w v) a d cells := by
  induction cells with
  | nil =>
    intro a d hl hw
    have : a ≠ w := by
      intro e; exact hw (by simp [e])
    simpa [Linked, Mem.load_write_ne _ _ _ _ this] using hl
  | cons p rest ih =>
    intro a d hl hw
    obtain ⟨h1, h2, h3⟩ := hl
    have haw : a ≠ w := by
      intro e; exact hw (by simp [e])
    refine ⟨?_, h2, ih h3 ?_⟩
    · rw [Mem.load_write_ne _ _ _ _ haw]; exact h1
    · intro hmem
      exact hw (List.mem_cons_of_mem _ (by simpa using hmem))

theorem Linked_last {h : List (Option cell)} {cells : List (Nat × Nat)} :
    ∀ {a d : Nat}, Linked h a d cells →
      ∃ dl, Mem.load h ((a :: cells.map Prod.fst).getLast (List.cons_ne_nil _ _))
        = some ⟨0, dl⟩ := by
  induction cells with
  | nil => intro a d hl; exact ⟨d, hl⟩
  | cons p rest ih =>
    intro a d hl
    obtain ⟨_, _, h3⟩ := hl
    obtain ⟨dl, hdl⟩ := ih h3
    exact ⟨dl, by simpa [List.getLast_cons] using hdl⟩

/-- Linking a new cell `c` behind the last cell of a list. -/
theorem Linked_snoc {h : List (Option cell)} {cells : List (Nat × Nat)} (c x : Nat) (hc : c ≠ 0) :
    ∀ {a d : Nat}, Linked h a d cells → (a :: cells.map Prod.fst).Nodup →
      c ∉ a :: cells.map Prod.fst →
      ∀ dl, Mem.load h ((a :: cells.map Prod.fst).getLast (List.cons_ne_nil _ _))
        = some ⟨0, dl⟩ →
      Linked
        (Mem.write (Mem.write h c (some ⟨0, x⟩))
          ((a :: cells.map Prod.fst).getLast (List.cons_ne_nil _ _)) (some ⟨c, dl⟩))
        a d (cells ++ [(c, x)]) := by
  induction cells with
  | nil =>
    intro a d hl _ hca dl hdl
    have hca : c ≠ a := by
      intro e; exact hca (by simp [e])
    have hda : dl = d := by
      simp only [List.map_nil, List.getLast_singleton] at hdl
      rw [hl] at hdl
      simpa using hdl.symm
    subst hda
    have ha0 : a ≠ 0 := by
      intro e
      have hl0 : Mem.load h a = some ⟨0, dl⟩ := hl
      rw [e, Mem.load_zero] at hl0
      exact absurd hl0 (by simp)
    refine ⟨?_, hc, ?_⟩
    · simp [Mem.load_write_same _ _ _ ha0]
    · simp only [List.map_nil, List.getLast_singleton, Linked]
      rw [Mem.load_write_ne _ _ _ _ hca, Mem.load_write_same _ _ _ hc]
  | cons p rest ih =>
    intro a d hl hnd hca dl hdl
    obtain ⟨h1, h2, h3⟩ := hl
    have hnd1 : (p.1 :: rest.map Prod.fst).Nodup := by
      simpa using (List.nodup_cons.mp hnd).2
    have hanot : a ∉ p.1 :: rest.map Prod.fst := by
      simpa using (List.nodup_cons.mp hnd).1
    have hc1 : c ∉ p.1 :: rest.map Prod.fst := by
      intro hm; exact hca (List.mem_cons_of_mem _ (by simpa using hm))
    have hca1 : a ≠ c := by
      intro e; exact hca (by simp [e])
    have hlast : (a :: List.map Prod.fst (p :: rest)).getLast (List.cons_ne_nil _ _)
        = (p.1 :: rest.map Prod.fst).getLast (List.cons_ne_nil _ _) := by
      simp [List.getLast_cons]
    have hat : a ≠ (p.1 :: rest.map Prod.fst).getLast (List.cons_ne_nil _ _) := by
      intro e
      exact hanot (e ▸ List.getLast_mem _)
    rw [hlast] at hdl ⊢
    have := ih h3 hnd1 hc1 dl hdl
    refine ⟨?_, h2, this⟩
    rw [Mem.load_write_ne _ _ _ _ hat, Mem.load_write_ne _ _ _ _ hca1]
    exact h1

theorem Inv_new_queue (junk : Nat) : Inv (new_queue junk) [] := by
  refine ⟨⟨junk, ?_⟩, by simp, rfl⟩
  rfl

theorem queue_enq_step (fuel : Nat) (q : queue) (cells : List (Nat × Nat)) (x : Nat)
    (hinv : Inv q cells) :
    ∃ q1, queue_enq (fuel + 1) q x = .ret q1 ∧
      Inv q1 (cells ++ [(Mem.malloc q.heap, x)]) ∧
      q1.head = q.head ∧ q1.head_count = q.head_count ∧
      q1.tail = Mem.malloc q.heap ∧ q1.tail_count = (q.tail_count + 1) % 2 ^ 64 := by
  obtain ⟨⟨d, hl⟩, hnd, htail⟩ := hinv
  have hc0 : Mem.malloc q.heap ≠ 0 := Mem.malloc_ne_zero _
  have hcfresh : Mem.malloc q.heap ∉ q.head :: cells.map Prod.fst := by
    intro hm
    obtain ⟨c, hc⟩ := Linked_allocated hl _ hm
    rw [Mem.load_malloc] at hc
    exact absurd hc (by simp)
  obtain ⟨dl, hdl⟩ := Linked_last hl
  have htc : q.tail ≠ Mem.malloc q.heap := by
    intro e
    apply hcfresh
    rw [← e, htail]
    exact List.getLast_mem _
  have hload : Mem.load (Mem.write q.heap (Mem.malloc q.heap) (some ⟨0, x⟩)) q.tail
      = some ⟨0, dl⟩ := by
    rw [Mem.load_write_ne _ _ _ _ htc, htail]; exact hdl
  have hsnoc := Linked_snoc (Mem.malloc q.heap) x hc0 hl hnd hcfresh dl hdl
  rw [← htail] at hsnoc
  refine ⟨{ q with
      heap := Mem.write (Mem.write q.heap (Mem.malloc q.heap) (some ⟨0, x⟩)) q.tail
        (some ⟨Mem.malloc q.heap, dl⟩)
      tail := Mem.malloc q.heap
      tail_count := (q.tail_count + 1) % 2 ^ 64 }, ?_, ?_⟩
  · simp only [queue_enq, enq_loop, hload, CAS2_tail]
    simp
  · refine ⟨⟨⟨d, hsnoc⟩, ?_, ?_⟩, rfl, rfl, rfl, rfl⟩
    · have : (q.head :: List.map Prod.fst (cells ++ [(Mem.malloc q.heap, x)]))
          = (q.head :: cells.map Prod.fst) ++ [Mem.malloc q.heap] := by simp
      show (q.head :: List.map Prod.fst (cells ++ [(Mem.malloc q.heap, x)])).Nodup
      rw [this]
      refine List.Nodup.append hnd (List.nodup_singleton _) ?_
      intro z hz1 hz2
      simp only [List.mem_singleton] at hz2
      subst hz2
      exact hcfresh hz1
    · show Mem.malloc q.heap = _
      simp [List.getLast_cons]

theorem queue_deq_empty (fuel : Nat) (q : queue) (result : Nat) (hinv : Inv q []) :
    queue_deq (fuel + 1) q result = .ret (0, result, q) := by
  obtain ⟨⟨d, hl⟩, _, htail⟩ := hinv
  have hl0 : Mem.load q.heap q.head = some ⟨0, d⟩ := hl
  have ht : q.tail = q.head := by simpa using htail
  simp [queue_deq, hl0, ht]

theorem queue_deq_step (fuel : Nat) (q : queue) (b x : Nat) (rest : List (Nat × Nat))
    (result : Nat) (hinv : Inv q ((b, x) :: rest)) :
    ∃ q1, queue_deq (fuel + 1) q result = .ret (1, x, q1) ∧ Inv q1 rest ∧
      q1.head = b ∧ q1.head_count = (q.head_count + 1) % 2 ^ 64 ∧
      q1.tail = q.tail ∧ q1.tail_count = q.tail_count := by
  obtain ⟨⟨d, hl⟩, hnd, htail⟩ := hinv
  obtain ⟨h1, hb0, h3⟩ := hl
  obtain ⟨n, hn⟩ := Linked_load_head h3
  have hnd1 : (b :: rest.map Prod.fst).Nodup := by
    simpa using (List.nodup_cons.mp hnd).2
  have hanot : q.head ∉ b :: rest.map Prod.fst := by
    simpa using (List.nodup_cons.mp hnd).1
  have hlast : q.tail = (b :: rest.map Prod.fst).getLast (List.cons_ne_nil _ _) := by
    rw [htail]; simp [List.getLast_cons]
  have hht : q.head ≠ q.tail := by
    intro e
    apply hanot
    rw [e, hlast]
    exact List.getLast_mem _
  have hh0 : q.head ≠ 0 := by
    intro e
    rw [e, Mem.load_zero] at h1
    exact absurd h1 (by simp)
  refine ⟨{ q with
      head := b
      head_count := (q.head_count + 1) % 2 ^ 64
      heap := Mem.write q.heap q.head none }, ?_, ?_⟩
  · simp only [queue_deq, h1]
    simp [hht, hb0, hn, CAS2_head, Mem.free, hh0, h1]
  · refine ⟨⟨⟨x, Linked_frame _ _ h3 hanot⟩, hnd1, hlast⟩, rfl, rfl, rfl, rfl⟩

theorem run_refines (fuel : Nat) (ops : List Op) :
    ∀ (q : queue) (cells : List (Nat × Nat)) (result : Nat), Inv q cells →
      ∃ q1, run (fuel + 1) q result ops
        = .ret (fifo_run (cells.map Prod.snd) result ops, q1) := by
  induction ops with
  | nil => intro q cells result _; exact ⟨q, by simp [run, fifo_run]⟩
  | cons op ops ih =>
    intro q cells result hinv
    cases op with
    | enq x =>
      obtain ⟨q1, hq1, hinv1, _⟩ := queue_enq_step fuel q cells x hinv
      obtain ⟨q2, hq2⟩ := ih q1 _ result hinv1
      refine ⟨q2, ?_⟩
      simp only [run, hq1, hq2, fifo_run]
      simp
    | deq =>
      cases cells with
      | nil =>
        have h0 := queue_deq_empty fuel q result hinv
        obtain ⟨q2, hq2⟩ := ih q [] result hinv
        refine ⟨q2, ?_⟩
        simp only [run, h0, hq2]
        simp [fifo_run]
      | cons p rest =>
        obtain ⟨b, x⟩ := p
        obtain ⟨q1, hq1, hinv1, _⟩ := queue_deq_step fuel q b x rest result hinv
        obtain ⟨q2, hq2⟩ := ih q1 rest x hinv1
        refine ⟨q2, ?_⟩
        simp only [run, hq1, hq2]
        simp [fifo_run]

theorem queue_deq_ret_zero (fuel : Nat) : ∀ (q : queue) (result r : Nat) (q1 : queue),
    queue_deq fuel q result = .ret (0, r, q1) →
    r = result ∧ q1 = q ∧ q.head = q.tail ∧ ∃ d, Mem.load q.heap q.head = some ⟨0, d⟩ := by
  induction fuel with
  | zero => intro q result r q1 h; simp [queue_deq] at h
  | succ n ih =>
    intro q result r q1 h
    rw [queue_deq] at h
    simp only [] at h
    split at h
    · simp at h
    · rename_i hc hload
      split at h
      · rename_i hne; exact absurd rfl hne
      · split at h
        · rename_i heq
          split at h
          · rename_i hnext
            simp at h
            obtain ⟨rfl, rfl⟩ := h
            refine ⟨rfl, rfl, heq, hc.data, ?_⟩
            rw [hload]
            cases hc
            simp_all
          · rename_i hnext
            obtain ⟨_, _, _, d, hd⟩ := ih _ _ _ _ h
            simp only [CAS2_tail] at hd
            simp at hd
            rw [hload] at hd
            simp at hd
            exact absurd (by rw [hd]) hnext
        · split at h
          · split at h
            · simp at h
            · simp only [CAS2_head] at h
              simp at h
              split at h
              · simp at h
              · simp at h
          · obtain ⟨_, _, hht, _⟩ := ih _ _ _ _ h
            exact absurd hht (by assumption)

theorem queue_deq_of_empty (fuel : Nat) (q : queue) (result d : Nat)
    (hht : q.head = q.tail) (hl : Mem.load q.heap q.head = some ⟨0, d⟩) :
    queue_deq (fuel + 1) q result = .ret (0, result, q) := by
  rw [queue_deq]
  simp only [hl]
  simp [hht]

/-- C1: every finite sequence of `queue_enq` / `queue_deq` calls on
`new_queue()` returns, and the return value and stored result of every
`queue_deq` are those of the abstract FIFO list: 1 and the oldest value not yet
dequeued when the list is non-empty, 0 (nothing stored) when it is empty. The
scenario enq 10, 20, 30 and four dequeues gives 10, 20, 30, empty. -/
theorem ms_queue_refines_fifo (junk result fuel : Nat) (ops : List Op) :
    (∃ q1, run (fuel + 1) (new_queue junk) result ops
      = .ret (fifo_run [] result ops, q1)) ∧
    fifo_run [] result [.enq 10, .enq 20, .enq 30, .deq, .deq, .deq, .deq]
      = [(1, 10), (1, 20), (1, 30), (0, 30)] := by
  constructor
  · simpa using run_refines fuel ops (new_queue junk) [] result (Inv_new_queue junk)
  · rfl

/-- C4: whenever `queue_deq` returns 0 it has left `*result` and the whole queue
(head, head_count, tail, tail_count and every cell) as they were, so every
further `queue_deq` on that queue returns 0 as well; and `queue_deq` on
`new_queue()` returns 0. -/
theorem ms_deq_empty_leaves_queue (fuel : Nat) (q : queue) (result r : Nat) (q1 : queue)
    (h : queue_deq fuel q result = .ret (0, r, q1)) :
    r = result ∧ q1 = q ∧
    (∀ fuel2 result2, queue_deq (fuel2 + 1) q1 result2 = .ret (0, result2, q1)) ∧
    (∀ junk fuel2 result2,
      queue_deq (fuel2 + 1) (new_queue junk) result2 = .ret (0, result2, new_queue junk)) := by
  obtain ⟨hr, hq, hht, d, hd⟩ := queue_deq_ret_zero fuel q result r q1 h
  subst hq
  refine ⟨hr, rfl, ?_, ?_⟩
  · intro fuel2 result2
    exact queue_deq_of_empty fuel2 q1 result2 d hht hd
  · intro junk fuel2 result2
    exact queue_deq_empty fuel2 (new_queue junk) result2 (Inv_new_queue junk)

/-- C4 on the fresh queue with `*result = 99` before the call. -/
theorem ms_deq_empty_leaves_queue_witness :
    queue_deq 1 (new_queue 0) 99 = .ret (0, 99, new_queue 0) ∧
    (99 = 99 ∧ new_queue 0 = new_queue 0 ∧
    (∀ fuel2 result2, queue_deq (fuel2 + 1) (new_queue 0) result2
      = .ret (0, result2, new_queue 0)) ∧
    (∀ junk fuel2 result2,
      queue_deq (fuel2 + 1) (new_queue junk) result2 = .ret (0, result2, new_queue junk))) :=
  ⟨by decide, ms_deq_empty_leaves_queue 1 (new_queue 0) 99 99 (new_queue 0) (by decide)⟩

end MS

/-! ## Baskets queue: a dequeue never removes the oldest value -/

namespace Basket

theorem deleted_small (t : Nat) (h : t < 2 ^ 63) : deleted t = 0 := by
  unfold deleted
  have : (1 <<< 63) &&& t = 0 := by
    have h1 : (1 <<< 63 : Nat) = 2 ^ 63 := by decide
    rw [h1]
    apply Nat.eq_of_testBit_eq
    intro i
    simp only [Nat.testBit_and, Nat.testBit_two_pow, Nat.zero_testBit]
    by_cases hi : 63 = i
    · subst hi
      simp [Nat.testBit_lt_two_pow h]
    · simp [hi]
  rw [if_pos this]

theorem delete_tag_one (t : Nat) (h : t < 2 ^ 64) : delete_tag 1 t = t := by
  unfold delete_tag
  have h1 : (0xFFFFFFFFFFFFFFFF >>> (if (1 : Nat) = 0 then 1 else 0) : Nat) = 2 ^ 64 - 1 := by
    decide
  rw [h1, Nat.and_comm, Nat.and_pow_two_sub_one_eq_mod, Nat.mod_eq_of_lt h]

theorem delete_tag_zero (t : Nat) (h : t < 2 ^ 63) : delete_tag 0 t = t := by
  unfold delete_tag
  have h1 : (0xFFFFFFFFFFFFFFFF >>> (if (0 : Nat) = 0 then 1 else 0) : Nat) = 2 ^ 63 - 1 := by
    decide
  rw [h1, Nat.and_comm, Nat.and_pow_two_sub_one_eq_mod, Nat.mod_eq_of_lt h]

/-- One `queue_deq` on a queue whose first link is not marked deleted. -/
theorem queue_deq_live (fuel : Nat) (q : queue) (result : Nat) (h n : cell)
    (hh : Mem.load q.heap q.head.ptr = some h) (hne : q.head.ptr ≠ q.tail.ptr)
    (hd : deleted h.next.tag = 0) (hn : Mem.load q.heap h.next.ptr = some n) :
    queue_deq (fuel + 1) q result = .ret (1, n.data, ⟨q.head, q.tail,
      Mem.write q.heap q.head.ptr
        (some ⟨⟨h.next.ptr, delete_tag 1 ((h.next.tag + 1) % 2 ^ 64)⟩, h.data⟩)⟩) := by
  have hcmp : pointer_cmp q.head q.head = 1 := by simp [pointer_cmp]
  have hw : hop_walk (fuel + 1) q q.head q.tail q.head h.next 0 = .ret (q.head, h.next, 0) := by
    rw [hop_walk]
    simp only [hd]
    simp
  rw [queue_deq]
  simp only [hh, hcmp, hw, hne, hn, CAS2_next]
  simp

/-- One `queue_enq` on a queue whose `tail` designates the last cell. -/
theorem queue_enq_last (fuel : Nat) (q : queue) (x : Nat) (junk : pointer) (t : cell)
    (ht : Mem.load q.heap q.tail.ptr = some t) (hnull : t.next.ptr = 0) :
    queue_enq (fuel + 1) q x junk = .ret ⟨q.head,
      ⟨Mem.malloc q.heap, delete_tag 0 ((q.tail.tag + 1) % 2 ^ 64)⟩,
      Mem.write
        (Mem.write (Mem.write q.heap (Mem.malloc q.heap) (some ⟨junk, x⟩)) (Mem.malloc q.heap)
          (some ⟨⟨0, delete_tag 0 ((q.tail.tag + 2) % 2 ^ 64)⟩, x⟩))
        q.tail.ptr
        (some ⟨⟨Mem.malloc q.heap, delete_tag 0 ((q.tail.tag + 1) % 2 ^ 64)⟩, t.data⟩)⟩ := by
  have hc0 : Mem.malloc q.heap ≠ 0 := Mem.malloc_ne_zero _
  have htc : q.tail.ptr ≠ Mem.malloc q.heap := by
    intro e
    rw [e, Mem.load_malloc] at ht
    exact absurd ht (by simp)
  have hcmp : pointer_cmp q.tail q.tail = 1 := by simp [pointer_cmp]
  have l1 : Mem.load (Mem.write q.heap (Mem.malloc q.heap) (some ⟨junk, x⟩)) q.tail.ptr
      = some t := by rw [Mem.load_write_ne _ _ _ _ htc, ht]
  have l2 : Mem.load (Mem.write q.heap (Mem.malloc q.heap) (some ⟨junk, x⟩)) (Mem.malloc q.heap)
      = some ⟨junk, x⟩ := Mem.load_write_same _ _ _ hc0
  have l3 : ∀ v, Mem.load (Mem.write (Mem.write q.heap (Mem.malloc q.heap) (some ⟨junk, x⟩))
      (Mem.malloc q.heap) v) q.tail.ptr = some t := by
    intro v; rw [Mem.load_write_ne _ _ _ _ htc, l1]
  unfold queue_enq
  simp only []
  rw [enq_loop]
  simp only [l1, l2, hcmp, hnull, CAS2_next, l3, CAS2_tail]
  simp

theorem load_some_ne_malloc {h : List (Option cell)} {a : Nat} {c : cell}
    (hl : Mem.load h a = some c) : a ≠ Mem.malloc h := by
  intro e
  rw [e, Mem.load_malloc] at hl
  exact absurd hl (by simp)

theorem OldestStays_enq (fuel : Nat) (q : queue) (x k y : Nat) (junk : pointer)
    (hq : OldestStays q x k) :
    ∃ q1, queue_enq (fuel + 1) q y junk = .ret q1 ∧ OldestStays q1 x k := by
  obtain ⟨h, n, t, hh, hk, hah, hn, hx, hht, ht, hnull⟩ := hq
  refine ⟨_, queue_enq_last fuel q y junk t ht hnull, ?_⟩
  have hc0 : Mem.malloc q.heap ≠ 0 := Mem.malloc_ne_zero _
  have c1 := load_some_ne_malloc hh
  have c2 := load_some_ne_malloc hn
  have c3 := load_some_ne_malloc ht
  by_cases hat : h.next.ptr = q.tail.ptr
  · have htn : t = n := by
      rw [hat, ht] at hn
      simpa using hn
    subst htn
    refine ⟨h, ⟨⟨Mem.malloc q.heap, delete_tag 0 ((q.tail.tag + 1) % 2 ^ 64)⟩, t.data⟩,
      ⟨⟨0, delete_tag 0 ((q.tail.tag + 2) % 2 ^ 64)⟩, y⟩, ?_, hk, hah, ?_, hx, ?_, ?_, rfl⟩
    · show Mem.load (Mem.write _ _ _) q.head.ptr = some h
      rw [Mem.load_write_ne _ _ _ _ hht, Mem.load_write_ne _ _ _ _ c1,
        Mem.load_write_ne _ _ _ _ c1, hh]
    · show Mem.load (Mem.write _ q.tail.ptr _) h.next.ptr = _
      rw [hat, Mem.load_write_same _ _ _ (by
        intro e; rw [e, Mem.load_zero] at ht; exact absurd ht (by simp))]
    · show q.head.ptr ≠ Mem.malloc q.heap
      exact c1
    · show Mem.load (Mem.write _ q.tail.ptr _) (Mem.malloc q.heap) = _
      rw [Mem.load_write_ne _ _ _ _ (Ne.symm c3), Mem.load_write_same _ _ _ hc0]
  · refine ⟨h, n, ⟨⟨0, delete_tag 0 ((q.tail.tag + 2) % 2 ^ 64)⟩, y⟩,
      ?_, hk, hah, ?_, hx, ?_, ?_, rfl⟩
    · show Mem.load (Mem.write _ _ _) q.head.ptr = some h
      rw [Mem.load_write_ne _ _ _ _ hht, Mem.load_write_ne _ _ _ _ c1,
        Mem.load_write_ne _ _ _ _ c1, hh]
    · show Mem.load (Mem.write _ q.tail.ptr _) h.next.ptr = _
      rw [Mem.load_write_ne _ _ _ _ hat, Mem.load_write_ne _ _ _ _ c2,
        Mem.load_write_ne _ _ _ _ c2, hn]
    · show q.head.ptr ≠ Mem.malloc q.heap
      exact c1
    · show Mem.load (Mem.write _ q.tail.ptr _) (Mem.malloc q.heap) = _
      rw [Mem.load_write_ne _ _ _ _ (Ne.symm c3), Mem.load_write_same _ _ _ hc0]

theorem OldestStays_first (fuel junk x : Nat) (jp : pointer) :
    ∃ q1, queue_enq (fuel + 1) (new_queue junk) x jp = .ret q1 ∧ OldestStays q1 x 1 := by
  have ht : Mem.load (new_queue junk).heap (new_queue junk).tail.ptr = some ⟨⟨0, 0⟩, junk⟩ := rfl
  refine ⟨_, queue_enq_last fuel (new_queue junk) x jp _ ht rfl, ?_⟩
  have hm : Mem.malloc (new_queue junk).heap = 2 := rfl
  have hp : (new_queue junk).tail = ⟨1, 0⟩ := rfl
  have hhd : (new_queue junk).head = ⟨1, 0⟩ := rfl
  have hheap : (new_queue junk).heap = [some ⟨⟨0, 0⟩, junk⟩] := rfl
  have e1 : delete_tag 0 ((0 + 1) % 2 ^ 64) = 1 := by decide
  simp only [hm, hp, hhd, hheap, e1]
  refine ⟨⟨⟨2, 1⟩, junk⟩, ⟨⟨0, delete_tag 0 ((0 + 2) % 2 ^ 64)⟩, x⟩,
    ⟨⟨0, delete_tag 0 ((0 + 2) % 2 ^ 64)⟩, x⟩, ?_, rfl, ?_, ?_, rfl, ?_, ?_, rfl⟩
  · rfl
  · simp
  · rfl
  · simp [Mem.malloc, Mem.free_index]
  · rfl

theorem OldestStays_enq_all (fuel : Nat) (xs : List Nat) :
    ∀ (q : queue) (x k : Nat), OldestStays q x k →
      ∃ q1, enq_all (fuel + 1) q xs = .ret q1 ∧ OldestStays q1 x k := by
  induction xs with
  | nil => intro q x k hq; exact ⟨q, rfl, hq⟩
  | cons y ys ih =>
    intro q x k hq
    obtain ⟨q1, h1, hq1⟩ := OldestStays_enq fuel q x k y ⟨0, 0⟩ hq
    obtain ⟨q2, h2, hq2⟩ := ih q1 x k hq1
    exact ⟨q2, by simp only [enq_all, h1, h2], hq2⟩

theorem OldestStays_deq (fuel : Nat) (q : queue) (x k result : Nat)
    (hq : OldestStays q x k) (hk : k + 1 < 2 ^ 63) :
    ∃ q1, queue_deq (fuel + 1) q result = .ret (1, x, q1) ∧ OldestStays q1 x (k + 1) := by
  obtain ⟨h, n, t, hh, hkt, hah, hn, hx, hht, ht, hnull⟩ := hq
  have hd : deleted h.next.tag = 0 := deleted_small _ (by omega)
  have h64 : k + 1 < 2 ^ 64 := by omega
  have hstep := queue_deq_live fuel q result h n hh hht hd hn
  rw [hkt, Nat.mod_eq_of_lt h64, delete_tag_one _ h64, hx] at hstep
  have hh0 : q.head.ptr ≠ 0 := by
    intro e; rw [e, Mem.load_zero] at hh; exact absurd hh (by simp)
  refine ⟨_, hstep, ⟨⟨h.next.ptr, k + 1⟩, h.data⟩, n, t, ?_, rfl, hah, ?_, hx, hht, ?_, hnull⟩
  · exact Mem.load_write_same _ _ _ hh0
  · show Mem.load (Mem.write _ _ _) h.next.ptr = _
    rw [Mem.load_write_ne _ _ _ _ hah, hn]
  · show Mem.load (Mem.write _ _ _) q.tail.ptr = _
    rw [Mem.load_write_ne _ _ _ _ (Ne.symm hht), ht]

theorem OldestStays_deq_n (fuel : Nat) (n : Nat) :
    ∀ (q : queue) (x k result : Nat), OldestStays q x k → k + n < 2 ^ 63 →
      ∃ q1, deq_n (fuel + 1) n q result = .ret (List.replicate n (1, x), q1) := by
  induction n with
  | zero => intro q x k result _ _; exact ⟨q, rfl⟩
  | succ m ih =>
    intro q x k result hq hk
    obtain ⟨q1, h1, hq1⟩ := OldestStays_deq fuel q x k result hq (by omega)
    obtain ⟨q2, h2⟩ := ih q1 x (k + 1) x hq1 (by omega)
    exact ⟨q2, by simp only [deq_n, h1, h2, List.replicate_succ]⟩

/-- C2 (code at the failing inputs): after the values `x :: rest` have been
enqueued on `new_queue()`, each of the next `n` calls of `queue_deq` returns 1
with the same value `x`: the oldest value is dequeued again and again, no later
value is ever returned and no call returns 0. For `enq(10); enq(20)` three
dequeues give 10, 10, 10. -/
theorem basket_deq_repeats_oldest (fuel junk result x : Nat) (rest : List Nat) (n : Nat)
    (hn : n < 2 ^ 62) :
    enq_deq_trace (fuel + 1) junk (x :: rest) n result = .ret (List.replicate n (1, x)) := by
  obtain ⟨q1, h1, hq1⟩ := OldestStays_first fuel junk x ⟨0, 0⟩
  obtain ⟨q2, h2, hq2⟩ := OldestStays_enq_all fuel rest q1 x 1 hq1
  obtain ⟨q3, h3⟩ := OldestStays_deq_n fuel n q2 x 1 result hq2 (by omega)
  simp only [enq_deq_trace, enq_all, h1, h2, h3]

/-- C2 for `enq(10); enq(20)` and three dequeues. -/
theorem basket_deq_repeats_oldest_witness :
    3 < 2 ^ 62 ∧ enq_deq_trace (0 + 1) 0 (10 :: [20]) 3 0 = .ret (List.replicate 3 (1, 10)) :=
  ⟨by decide, basket_deq_repeats_oldest 0 0 0 10 [20] 3 (by decide)⟩

end Basket

/-! ## Bounded queue: slot states, the first enqueue, the helping CAS on head -/

namespace BQ

/-- The outer loop of `bqueue_enq` is the repetition of `enq_iter`. -/
theorem bqueue_enq_eq_iter (fuel : Nat) (q : bqueue) (data : Nat) :
    bqueue_enq (fuel + 1) q data =
      match enq_iter (fuel + 1) q data with
      | .ret (.inl r) => .ret r
      | .ret (.inr q1) => bqueue_enq fuel q1 data
      | .ub => .ub
      | .nofuel => .nofuel := by
  rw [bqueue_enq]
  unfold enq_iter enq_state
  simp only []
  repeat' split
  all_goals simp_all

theorem enq_walk_ret (fuel : Nat) (q : bqueue) :
    ∀ (cell : option) (nt : Nat) (cell1 : option) (nt1 : Nat),
      enq_walk fuel q q.tail cell nt = .ret (cell1, nt1) →
      VALID cell1.state = 0 ∨ nt1 = q.head := by
  induction fuel with
  | zero => intro cell nt cell1 nt1 h; simp [enq_walk] at h
  | succ n ih =>
    intro cell nt cell1 nt1 h
    rw [enq_walk] at h
    split at h
    · split at h
      · rename_i hne; exact absurd rfl hne
      · split at h
        · rename_i hh
          simp at h
          exact Or.inr (h.2 ▸ hh)
        · split at h
          · simp at h
          · exact ih _ _ _ _ h
    · rename_i hv
      simp at h
      left
      rw [← h.1]
      simpa using hv

theorem deq_walk_ret (fuel : Nat) (q : bqueue) :
    ∀ (cell : option) (nh : Nat) (cell1 : option) (nh1 : Nat),
      deq_walk fuel q q.head cell nh = .ret (some (cell1, nh1)) →
      VALID cell1.state ≠ 0 := by
  induction fuel with
  | zero => intro cell nh cell1 nh1 h; simp [deq_walk] at h
  | succ n ih =>
    intro cell nh cell1 nh1 h
    rw [deq_walk] at h
    split at h
    · split at h
      · rename_i hne; exact absurd rfl hne
      · split at h
        · simp at h
        · simp only [] at h
          split at h
          · simp at h
          · exact ih _ _ _ _ h
    · rename_i hv
      simp at h
      rw [← h.1]
      exact hv

theorem CAS2_true (q : bqueue) (i od oc nd nc : Nat) (q1 : bqueue)
    (h : CAS2 q i od oc nd nc = some (true, q1)) :
    q.nodes[i]? = some ⟨od, oc⟩ ∧ q1 = { q with nodes := q.nodes.set i ⟨nd, nc⟩ } := by
  unfold CAS2 at h
  split at h
  · simp at h
  · rename_i o ho
    split at h
    · rename_i hc
      simp at h
      refine ⟨?_, h.symm⟩
      rw [ho]
      cases o
      simp_all
    · simp at h

theorem CAS2_false (q : bqueue) (i od oc nd nc : Nat) (q1 : bqueue)
    (h : CAS2 q i od oc nd nc = some (false, q1)) : q1 = q := by
  unfold CAS2 at h
  split at h
  · simp at h
  · split at h
    · simp at h
    · simp at h; exact h.symm

theorem CAS_tail_nodes (q : bqueue) (a b : Nat) :
    (CAS_tail q a b).2.nodes = q.nodes ∧ (CAS_tail q a b).2.head = q.head ∧
      (CAS_tail q a b).2.max = q.max := by
  unfold CAS_tail; split <;> simp

theorem CAS_head_nodes (q : bqueue) (a b : Nat) :
    (CAS_head q a b).2.nodes = q.nodes ∧ (CAS_head q a b).2.tail = q.tail ∧
      (CAS_head q a b).2.max = q.max := by
  unfold CAS_head; split <;> simp

/-- A pass of `bqueue_enq` that loops back has not touched the slots. -/
theorem enq_iter_inr (fuel : Nat) (q : bqueue) (data : Nat) (q1 : bqueue)
    (h : enq_iter fuel q data = .ret (.inr q1)) : q1.nodes = q.nodes := by
  unfold enq_iter at h
  simp only [] at h
  repeat' split at h
  all_goals first
    | (simp at h; done)
    | (simp at h; subst h; rfl)
    | (simp at h; subst h; exact (CAS_head_nodes _ _ _).1)
    | (simp at h; subst h; rename_i hc; rw [CAS2_false _ _ _ _ _ _ _ hc])

/-- A pass of `bqueue_enq` that returns either reports full and changes nothing
or has swapped one slot that was not `VALID`. -/
theorem enq_iter_inl (fuel : Nat) (q : bqueue) (data r : Nat) (q1 : bqueue)
    (h : enq_iter fuel q data = .ret (.inl (r, q1))) :
    (r = 0 ∧ q1 = q) ∨
    (r = 1 ∧ ∃ i o, q.nodes[i]? = some o ∧ VALID o.state = 0 ∧
      q1.nodes = q.nodes.set i ⟨data, enq_state o.state⟩ ∧ q1.head = q.head) := by
  unfold enq_iter at h
  simp only [] at h
  split at h
  · simp at h
  · split at h
    · simp at h
    · split at h
      · simp at h
      · simp at h
      · rename_i cell nt hw
        split at h
        · simp at h
        · split at h
          · split at h
            · simp at h
            · split at h
              · simp at h; exact Or.inl ⟨h.1.symm, h.2.symm⟩
              · simp at h
          · rename_i hnh
            split at h
            · simp at h
            · rename_i q2 hc
              simp at h
              obtain ⟨hr, hq⟩ := h
              obtain ⟨hslot, hq2⟩ := CAS2_true _ _ _ _ _ _ _ hc
              right
              refine ⟨hr.symm, nt, cell, ?_, ?_, ?_, ?_⟩
              · simpa using hslot
              · rcases enq_walk_ret _ _ _ _ _ _ hw with hv | hv
                · exact hv
                · exact absurd hv hnh
              · rw [← hq, (CAS_tail_nodes _ _ _).1, hq2]
              · rw [← hq, (CAS_tail_nodes _ _ _).2.1, hq2]
            · simp at h

/-- Every successful `bqueue_enq` has replaced the content of exactly one slot,
which was not `VALID`, by the new data and the state `enq_state` gives. -/
theorem bqueue_enq_installs (fuel : Nat) : ∀ (q : bqueue) (data : Nat) (q1 : bqueue),
    bqueue_enq fuel q data = .ret (1, q1) →
    ∃ i o, q.nodes[i]? = some o ∧ VALID o.state = 0 ∧
      q1.nodes = q.nodes.set i ⟨data, enq_state o.state⟩ := by
  induction fuel with
  | zero => intro q data q1 h; simp [bqueue_enq] at h
  | succ n ih =>
    intro q data q1 h
    rw [bqueue_enq_eq_iter] at h
    split at h
    · rename_i r hr
      simp at h
      subst h
      rcases enq_iter_inl _ _ _ _ _ hr with ⟨h0, _⟩ | ⟨_, i, o, h1, h2, h3, _⟩
      · simp at h0
      · exact ⟨i, o, h1, h2, h3⟩
    · rename_i q2 hr
      obtain ⟨i, o, h1, h2, h3⟩ := ih _ _ _ h
      rw [enq_iter_inr _ _ _ _ hr] at h1 h3
      exact ⟨i, o, h1, h2, h3⟩
    · simp at h
    · simp at h

/-- Every successful `bqueue_deq` has returned the data of one `VALID` slot and
replaced its content by `NULL` data and the state `deq_state` gives. -/
theorem bqueue_deq_installs (fuel : Nat) : ∀ (q : bqueue) (result r1 : Nat) (q1 : bqueue),
    bqueue_deq fuel q result = .ret (1, r1, q1) →
    ∃ i o, q.nodes[i]? = some o ∧ VALID o.state ≠ 0 ∧ r1 = o.data ∧
      q1.nodes = q.nodes.set i ⟨0, deq_state o.state⟩ := by
  induction fuel with
  | zero => intro q result r1 q1 h; simp [bqueue_deq] at h
  | succ n ih =>
    intro q result r1 q1 h
    rw [bqueue_deq] at h
    simp only [] at h
    split at h
    · simp at h
    · split at h
      · simp at h
      · rename_i c0 hc0
        split at h
        · simp at h
        · simp at h
        · simp at h
        · rename_i cell nh hw
          split at h
          · rename_i hne; exact absurd rfl hne
          · split at h
            · rename_i q2 hct
              obtain ⟨i, o, h1, h2, h3, h4⟩ := ih _ _ _ _ h
              have hn : q2.nodes = q.nodes := by
                have := (CAS_tail_nodes q nh ((nh + 1) % q.max)).1
                rw [hct] at this
                exact this
              rw [hn] at h1 h4
              exact ⟨i, o, h1, h2, h3, h4⟩
            · rename_i q2 hct
              have hq2 : q2 = q := by
                unfold CAS_tail at hct
                split at hct
                · simp at hct
                · simp at hct; exact hct.symm
              subst hq2
              split at h
              · simp at h
              · rename_i q3 hc
                simp at h
                obtain ⟨hr, hq⟩ := h
                obtain ⟨hslot, hq3⟩ := CAS2_true _ _ _ _ _ _ _ hc
                refine ⟨nh, cell, by simpa using hslot, deq_walk_ret _ _ _ _ _ _ hw, hr.symm, ?_⟩
                rw [← hq, (CAS_head_nodes _ _ _).1, hq3]
                rfl
              · rename_i q3 hc
                rw [CAS2_false _ _ _ _ _ _ _ hc] at h
                exact ih _ _ _ _ h

/-- C13: `bqueue_enq` installs `VALID_B` over `NULL_A` and `VALID_A` over
`NULL_B`; `bqueue_deq` installs `NULL_A` over `VALID_B` and `NULL_B` over
`VALID_A`; each of the four changes the phase bit and toggles the `VALID` bit.
These are the states the two functions write: a successful `bqueue_enq` has
replaced one slot that was not `VALID` by the data and `enq_state` of its old
state, a successful `bqueue_deq` one `VALID` slot by `NULL` and `deq_state`. -/
theorem slot_state_functions :
    (enq_state NULL_A = VALID_B ∧ enq_state NULL_B = VALID_A ∧
      deq_state VALID_B = NULL_A ∧ deq_state VALID_A = NULL_B) ∧
    (∀ s ∈ [NULL_A, NULL_B],
      NULLTYPE (enq_state s) ≠ NULLTYPE s ∧ VALID s = 0 ∧ VALID (enq_state s) ≠ 0) ∧
    (∀ s ∈ [VALID_A, VALID_B],
      NULLTYPE (deq_state s) ≠ NULLTYPE s ∧ VALID s ≠ 0 ∧ VALID (deq_state s) = 0) ∧
    (∀ fuel q data q1, bqueue_enq fuel q data = .ret (1, q1) →
      ∃ i o, q.nodes[i]? = some o ∧ VALID o.state = 0 ∧
        q1.nodes = q.nodes.set i ⟨data, enq_state o.state⟩) ∧
    (∀ fuel q result r1 q1, bqueue_deq fuel q result = .ret (1, r1, q1) →
      ∃ i o, q.nodes[i]? = some o ∧ VALID o.state ≠ 0 ∧ r1 = o.data ∧
        q1.nodes = q.nodes.set i ⟨0, deq_state o.state⟩) := by
  refine ⟨by decide, by decide, by decide, ?_, ?_⟩
  · intro fuel q data q1 h
    exact bqueue_enq_installs fuel q data q1 h
  · intro fuel q result r1 q1 h
    exact bqueue_deq_installs fuel q result r1 q1 h

/-- C13 on the fresh queue of capacity 4 in zeroed memory: the first enqueue
turns slot 2 from `NULL_B` into `VALID_A`. -/
theorem slot_state_functions_witness :
    ∃ i o, (⟨4, 0, 1, [⟨0, NULL_A⟩, ⟨0, NULL_B⟩, ⟨0, NULL_B⟩, ⟨0, NULL_B⟩, ⟨0, NULL_B⟩]⟩
        : bqueue).nodes[i]? = some o ∧ VALID o.state = 0 ∧
      (⟨4, 0, 2, [⟨0, NULL_A⟩, ⟨0, NULL_B⟩, ⟨7, VALID_A⟩, ⟨0, NULL_B⟩, ⟨0, NULL_B⟩]⟩
        : bqueue).nodes
        = (⟨4, 0, 1, [⟨0, NULL_A⟩, ⟨0, NULL_B⟩, ⟨0, NULL_B⟩, ⟨0, NULL_B⟩, ⟨0, NULL_B⟩]⟩
          : bqueue).nodes.set i ⟨7, enq_state o.state⟩ :=
  slot_state_functions.2.2.2.1 1
    ⟨4, 0, 1, [⟨0, NULL_A⟩, ⟨0, NULL_B⟩, ⟨0, NULL_B⟩, ⟨0, NULL_B⟩, ⟨0, NULL_B⟩]⟩ 7 _ (by decide)

/-- C14 (counterexample): a dequeue from a `VALID_A` slot leaves it `NULL_B`, not
`NULL_A`, and a slot that starts in `NULL_B` is in `NULL_B` again after one
enqueue and one dequeue. -/
theorem slot_cycle_is_not_four_states :
    deq_state VALID_A = NULL_B ∧ deq_state VALID_A ≠ NULL_A ∧
    deq_state VALID_B = NULL_A ∧ deq_state VALID_B ≠ NULL_B ∧
    slot_after 2 NULL_B = NULL_B := by
  decide

theorem slot_update_twice (s : Nat) (h : s ∈ [NULL_A, NULL_B, VALID_A, VALID_B]) :
    slot_update (slot_update s) = s := by
  simp only [List.mem_cons, List.mem_singleton, List.not_mem_nil, or_false] at h
  rcases h with rfl | rfl | rfl | rfl <;> decide

theorem slot_after_even (n s : Nat) (h : s ∈ [NULL_A, NULL_B, VALID_A, VALID_B]) :
    slot_after (2 * n) s = s := by
  induction n with
  | zero => rfl
  | succ k ih =>
    have : 2 * (k + 1) = (2 * k + 1) + 1 := by ring
    rw [this, slot_after, slot_after, slot_update_twice s h, ih]

/-- C14 (amended): the states of one slot along its successful updates alternate
inside one of two cycles of two states, `NULL_B -> VALID_A -> NULL_B` and
`NULL_A -> VALID_B -> NULL_A`: after an even number of updates the slot is in
the state it started in, after an odd number in the other state of its cycle. -/
theorem slot_lifecycle_two_cycles (n : Nat) :
    slot_after (2 * n) NULL_B = NULL_B ∧ slot_after (2 * n + 1) NULL_B = VALID_A ∧
    slot_after (2 * n) NULL_A = NULL_A ∧ slot_after (2 * n + 1) NULL_A = VALID_B ∧
    deq_state VALID_A = NULL_B ∧ deq_state VALID_B = NULL_A := by
  refine ⟨slot_after_even n _ (by decide), ?_, slot_after_even n _ (by decide), ?_,
    by decide, by decide⟩
  · rw [slot_after]
    exact slot_after_even n _ (by decide)
  · rw [slot_after]
    exact slot_after_even n _ (by decide)

theorem enq_two_stuck (fuel d0 d1 d2 data : Nat) :
    bqueue_enq fuel ⟨2, 1, 1, [⟨d0, NULL_A⟩, ⟨d1, NULL_B⟩, ⟨d2, NULL_B⟩]⟩ data = .nofuel := by
  induction fuel with
  | zero => rfl
  | succ n ih =>
    rw [bqueue_enq]
    simpa [enq_walk, VALID, NULLTYPE, NULL_A, NULL_B, VALID_A, VALID_B, CAS2] using ih

theorem enq_two_diverges (fuel d0 d1 d2 data : Nat) :
    bqueue_enq fuel ⟨2, 0, 1, [⟨d0, NULL_A⟩, ⟨d1, NULL_B⟩, ⟨d2, NULL_B⟩]⟩ data = .nofuel := by
  cases fuel with
  | zero => rfl
  | succ n =>
    rw [bqueue_enq]
    simpa [enq_walk, VALID, NULLTYPE, NULL_A, NULL_B, VALID_A, VALID_B, CAS_head]
      using enq_two_stuck n d0 d1 d2 data

/-- C16 (code at the failing inputs): for every capacity from 3 on (whose array
fits `size_t`), when slots 1 and 2 held the same garbage, the first
`bqueue_enq` on the queue `new_bqueue(c)` returns does return 1 but stores
`(x, VALID_A)` in slot 2 and leaves slot 1, the slot `tail` designated, as it
was; with capacity 2 the first `bqueue_enq` never returns. -/
theorem bqueue_first_enq_lands_in_slot_two (c : Nat) (junk : Nat → option) (x fuel : Nat)
    (hc : 3 ≤ c) (hb : (c + 1) * 16 < 2 ^ 64) (hj : (junk 1).data = (junk 2).data) :
    (∃ q, new_bqueue c junk = .ret q ∧
      bqueue_enq (fuel + 1) q x = .ret (1, ⟨c, 0, 2, q.nodes.set 2 ⟨x, VALID_A⟩⟩) ∧
      (q.nodes.set 2 ⟨x, VALID_A⟩)[1]? = some ⟨(junk 1).data, NULL_B⟩ ∧
      (q.nodes.set 2 ⟨x, VALID_A⟩)[2]? = some ⟨x, VALID_A⟩) ∧
    new_bqueue 2 junk = .ret ⟨2, 0, 1, [⟨(junk 0).data, NULL_A⟩, ⟨(junk 1).data, NULL_B⟩,
      ⟨(junk 2).data, NULL_B⟩]⟩ ∧
    bqueue_enq fuel ⟨2, 0, 1, [⟨(junk 0).data, NULL_A⟩, ⟨(junk 1).data, NULL_B⟩,
      ⟨(junk 2).data, NULL_B⟩]⟩ x = .nofuel := by
  have h1 : ((List.range (c + 1)).map
      (fun i => (⟨(junk i).data, if i = 0 then NULL_A else NULL_B⟩ : option)))[1]?
      = some ⟨(junk 1).data, NULL_B⟩ := by
    have : 1 ≤ c := by omega
    rw [new_bqueue_nodes_getElem?]
    simp [this]
  have h2 : ((List.range (c + 1)).map
      (fun i => (⟨(junk i).data, if i = 0 then NULL_A else NULL_B⟩ : option)))[2]?
      = some ⟨(junk 2).data, NULL_B⟩ := by
    have : 2 ≤ c := by omega
    rw [new_bqueue_nodes_getElem?]
    simp [this]
  have hlen : 2 < ((List.range (c + 1)).map
      (fun i => (⟨(junk i).data, if i = 0 then NULL_A else NULL_B⟩ : option))).length := by
    simp; omega
  have hmod : (1 + 1) % c = 2 := Nat.mod_eq_of_lt (by omega)
  have hc0 : c ≠ 0 := by omega
  refine ⟨⟨_, by rw [new_bqueue_eq, if_pos hb], ?_, ?_, ?_⟩, rfl, enq_two_diverges fuel _ _ _ x⟩
  · generalize (List.range (c + 1)).map
      (fun i => (⟨(junk i).data, if i = 0 then NULL_A else NULL_B⟩ : option)) = ns at h1 h2 hlen
    rw [bqueue_enq]
    simp only [h1, hc0, hmod, enq_walk]
    simp [VALID, NULLTYPE, NULL_B, VALID_A, CAS2, h2, hj, CAS_tail]
  · generalize (List.range (c + 1)).map
      (fun i => (⟨(junk i).data, if i = 0 then NULL_A else NULL_B⟩ : option)) = ns at h1 h2 hlen
    rw [List.getElem?_set]
    simp [h1]
  · generalize (List.range (c + 1)).map
      (fun i => (⟨(junk i).data, if i = 0 then NULL_A else NULL_B⟩ : option)) = ns at h1 h2 hlen
    rw [List.getElem?_set]
    simp [hlen]

/-- C16 at capacity 3 on zeroed memory. -/
theorem bqueue_first_enq_lands_in_slot_two_witness :
    3 ≤ 3 ∧ (3 + 1) * 16 < 2 ^ 64 ∧
    ∃ q, new_bqueue 3 (fun _ => ⟨0, 0⟩) = .ret q ∧
      bqueue_enq (0 + 1) q 7 = .ret (1, ⟨3, 0, 2, q.nodes.set 2 ⟨7, VALID_A⟩⟩) :=
  ⟨by decide, by decide,
    (bqueue_first_enq_lands_in_slot_two 3 (fun _ => ⟨0, 0⟩) 7 0 (by decide) (by decide) rfl).1.elim
      (fun q hq => ⟨q, hq.1, hq.2.1⟩)⟩

/-- C15 (code at the failing input): on `new_bqueue(3)` in zeroed memory, after
`bqueue_enq(q, A)` has returned 1, the second `bqueue_enq` moves `head` by its
helping `CAS` from 0 to 1 in its first pass and from 1 to 2 in its second pass,
and slot 2 holds `(A, VALID_A)`: `nodes[head]` is `VALID`. -/
theorem bqueue_enq_help_puts_head_on_valid_slot (A B fuel : Nat) :
    new_bqueue 3 (fun _ => ⟨0, 0⟩)
      = .ret ⟨3, 0, 1, [⟨0, NULL_A⟩, ⟨0, NULL_B⟩, ⟨0, NULL_B⟩, ⟨0, NULL_B⟩]⟩ ∧
    bqueue_enq (fuel + 1) ⟨3, 0, 1, [⟨0, NULL_A⟩, ⟨0, NULL_B⟩, ⟨0, NULL_B⟩, ⟨0, NULL_B⟩]⟩ A
      = .ret (1, ⟨3, 0, 2, [⟨0, NULL_A⟩, ⟨0, NULL_B⟩, ⟨A, VALID_A⟩, ⟨0, NULL_B⟩]⟩) ∧
    enq_iter (fuel + 2) ⟨3, 0, 2, [⟨0, NULL_A⟩, ⟨0, NULL_B⟩, ⟨A, VALID_A⟩, ⟨0, NULL_B⟩]⟩ B
      = .ret (.inr ⟨3, 1, 2, [⟨0, NULL_A⟩, ⟨0, NULL_B⟩, ⟨A, VALID_A⟩, ⟨0, NULL_B⟩]⟩) ∧
    enq_iter (fuel + 2) ⟨3, 1, 2, [⟨0, NULL_A⟩, ⟨0, NULL_B⟩, ⟨A, VALID_A⟩, ⟨0, NULL_B⟩]⟩ B
      = .ret (.inr ⟨3, 2, 2, [⟨0, NULL_A⟩, ⟨0, NULL_B⟩, ⟨A, VALID_A⟩, ⟨0, NULL_B⟩]⟩) ∧
    (⟨3, 2, 2, [⟨0, NULL_A⟩, ⟨0, NULL_B⟩, ⟨A, VALID_A⟩, ⟨0, NULL_B⟩]⟩ : bqueue).nodes[2]?
      = some ⟨A, VALID_A⟩ ∧
    VALID VALID_A ≠ 0 := by
  refine ⟨rfl, ?_, ?_, ?_, rfl, by decide⟩
  · simp [bqueue_enq, enq_walk, VALID, NULLTYPE, NULL_A, NULL_B, VALID_A, VALID_B, CAS2, CAS_tail]
  · simp [enq_iter, enq_walk, VALID, NULL_A, NULL_B, VALID_A, CAS_head]
  · simp [enq_iter, enq_walk, VALID, NULL_A, NULL_B, VALID_A, CAS_head]

end BQ

/-! ## Michael-Scott queue: structure and counters after every sequence of calls -/

namespace MS

/-- Every sequence of calls on a well-formed queue returns, with the trace and
the pending values of the abstract FIFO, a well-formed queue, and counters that
have advanced by the number of enqueues and of successful dequeues. -/
theorem run_inv (fuel : Nat) (ops : List Op) :
    ∀ (q : queue) (cells : List (Nat × Nat)) (result : Nat), Inv q cells →
      ∃ q1 cells1, run (fuel + 1) q result ops
          = .ret (fifo_run (cells.map Prod.snd) result ops, q1) ∧
        Inv q1 cells1 ∧
        cells1.map Prod.snd = fifo_pending (cells.map Prod.snd) ops ∧
        (q.tail_count + enq_count ops < 2 ^ 64 →
          q1.tail_count = q.tail_count + enq_count ops) ∧
        (q.head_count + success_count (fifo_run (cells.map Prod.snd) result ops) < 2 ^ 64 →
          q1.head_count
            = q.head_count + success_count (fifo_run (cells.map Prod.snd) result ops)) := by
  induction ops with
  | nil =>
    intro q cells result hinv
    exact ⟨q, cells, by simp [run, fifo_run], hinv, by simp [fifo_pending],
      by simp [enq_count], by simp [fifo_run, success_count]⟩
  | cons op ops ih =>
    intro q cells result hinv
    cases op with
    | enq x =>
      obtain ⟨q1, hq1, hinv1, hh, hhc, _, htc⟩ := queue_enq_step fuel q cells x hinv
      obtain ⟨q2, cells2, hq2, hinv2, hp2, ht2, hh2⟩ := ih q1 _ result hinv1
      have hmap : List.map Prod.snd (cells ++ [(Mem.malloc q.heap, x)])
          = cells.map Prod.snd ++ [x] := by simp
      rw [hmap] at hq2 hp2 hh2
      refine ⟨q2, cells2, ?_, hinv2, ?_, ?_, ?_⟩
      · simp only [run, hq1, hq2, fifo_run]
      · simpa [fifo_pending] using hp2
      · intro hb
        simp only [enq_count] at hb ⊢
        have h1 : (q.tail_count + 1) % 2 ^ 64 = q.tail_count + 1 :=
          Nat.mod_eq_of_lt (by omega)
        rw [htc, h1] at ht2
        rw [ht2 (by omega)]
        omega
      · intro hb
        simp only [fifo_run] at hb ⊢
        rw [hhc] at hh2
        exact hh2 hb
    | deq =>
      cases cells with
      | nil =>
        have h0 := queue_deq_empty fuel q result hinv
        obtain ⟨q2, cells2, hq2, hinv2, hp2, ht2, hh2⟩ := ih q [] result hinv
        simp only [List.map_nil] at hq2 hp2 hh2
        refine ⟨q2, cells2, ?_, hinv2, ?_, ?_, ?_⟩
        · simp only [run, h0, hq2, List.map_nil, fifo_run]
        · simpa [fifo_pending] using hp2
        · intro hb
          simp only [enq_count] at hb ⊢
          exact ht2 hb
        · intro hb
          simp only [List.map_nil, fifo_run, success_count] at hb ⊢
          simp only [Nat.zero_ne_one, if_false, Nat.zero_add] at hb ⊢
          exact hh2 hb
      | cons p rest =>
        obtain ⟨b, x⟩ := p
        obtain ⟨q1, hq1, hinv1, _, hhc, _, htc⟩ := queue_deq_step fuel q b x rest result hinv
        obtain ⟨q2, cells2, hq2, hinv2, hp2, ht2, hh2⟩ := ih q1 rest x hinv1
        refine ⟨q2, cells2, ?_, hinv2, ?_, ?_, ?_⟩
        · simp only [run, hq1, hq2, List.map_cons, fifo_run]
        · simpa [fifo_pending] using hp2
        · intro hb
          simp only [enq_count] at hb ⊢
          rw [htc] at ht2
          exact ht2 hb
        · intro hb
          simp only [List.map_cons, fifo_run, success_count, if_true] at hb ⊢
          have h1 : (q.head_count + 1) % 2 ^ 64 = q.head_count + 1 :=
            Nat.mod_eq_of_lt (by omega)
          rw [hhc, h1] at hh2
          rw [hh2 (by omega)]
          omega

/-- C18: after every sequence of `queue_enq` / `queue_deq` calls on `new_queue()`
the cells reachable from `head` form a finite list without repetition that
starts with the sentinel, `tail` is its last cell and has `next == NULL`, and
the payloads of the cells after the sentinel are the values enqueued and not
yet dequeued, in enqueue order. -/
theorem ms_structure_invariant (junk result fuel : Nat) (ops : List Op) :
    ∃ trace q1 cells, run (fuel + 1) (new_queue junk) result ops = .ret (trace, q1) ∧
      (∃ d, Linked q1.heap q1.head d cells) ∧
      (q1.head :: cells.map Prod.fst).Nodup ∧
      q1.tail = (q1.head :: cells.map Prod.fst).getLast (List.cons_ne_nil _ _) ∧
      (∃ d, Mem.load q1.heap q1.tail = some ⟨0, d⟩) ∧
      cells.map Prod.snd = fifo_pending [] ops := by
  obtain ⟨q1, cells1, hrun, hinv, hp, _, _⟩ :=
    run_inv fuel ops (new_queue junk) [] result (Inv_new_queue junk)
  obtain ⟨⟨d, hl⟩, hnd, htail⟩ := hinv
  obtain ⟨dl, hdl⟩ := Linked_last hl
  refine ⟨_, q1, cells1, hrun, ⟨d, hl⟩, hnd, htail, ⟨dl, ?_⟩, by simpa using hp⟩
  rw [htail]
  exact hdl

/-- C19: in every state `q` reached from `new_queue()` by a sequence of calls,
below 64-bit overflow: `queue_enq` adds 1 to `tail_count` and leaves `head` and
`head_count`; a `queue_deq` that returns 1 adds 1 to `head_count` and leaves
`tail` and `tail_count`; a `queue_deq` that returns 0 changes nothing; and
`tail_count` is the number of enqueues so far, `head_count` the number of
dequeues that returned 1. -/
theorem ms_counters (junk result fuel : Nat) (ops : List Op) (trace : List (Nat × Nat))
    (q : queue) (h : run (fuel + 1) (new_queue junk) result ops = .ret (trace, q)) :
    (∀ x, q.tail_count + 1 < 2 ^ 64 →
      ∃ q1, queue_enq (fuel + 1) q x = .ret q1 ∧ q1.tail_count = q.tail_count + 1 ∧
        q1.head = q.head ∧ q1.head_count = q.head_count) ∧
    (∀ res r1 q1, queue_deq (fuel + 1) q res = .ret (1, r1, q1) →
      q.head_count + 1 < 2 ^ 64 →
      q1.head_count = q.head_count + 1 ∧ q1.tail = q.tail ∧ q1.tail_count = q.tail_count) ∧
    (∀ res r1 q1, queue_deq (fuel + 1) q res = .ret (0, r1, q1) → q1 = q) ∧
    (enq_count ops < 2 ^ 64 → q.tail_count = enq_count ops) ∧
    (success_count trace < 2 ^ 64 → q.head_count = success_count trace) := by
  obtain ⟨q1, cells1, hrun, hinv, _, htc, hhc⟩ :=
    run_inv fuel ops (new_queue junk) [] result (Inv_new_queue junk)
  rw [h] at hrun
  simp only [Outcome.ret.injEq, Prod.mk.injEq, List.map_nil] at hrun
  obtain ⟨htr, hq⟩ := hrun
  subst hq
  simp only [List.map_nil] at hhc
  rw [← htr] at hhc
  have hz1 : (new_queue junk).tail_count = 0 := rfl
  have hz2 : (new_queue junk).head_count = 0 := rfl
  simp only [hz1, hz2, Nat.zero_add] at htc hhc
  refine ⟨?_, ?_, ?_, htc, hhc⟩
  · intro x hb
    obtain ⟨q2, hq2, _, hh, hc, _, ht⟩ := queue_enq_step fuel q cells1 x hinv
    refine ⟨q2, hq2, ?_, hh, hc⟩
    rw [ht, Nat.mod_eq_of_lt hb]
  · intro res r1 q2 hd hb
    cases cells1 with
    | nil =>
      rw [queue_deq_empty fuel q res hinv] at hd
      simp at hd
    | cons p rest =>
      obtain ⟨b, x⟩ := p
      obtain ⟨q3, hq3, _, _, hc, ht, htc3⟩ := queue_deq_step fuel q b x rest res hinv
      rw [hq3] at hd
      simp only [Outcome.ret.injEq, Prod.mk.injEq, true_and] at hd
      obtain ⟨_, hq⟩ := hd
      subst hq
      refine ⟨?_, ht, htc3⟩
      rw [hc, Nat.mod_eq_of_lt hb]
  · intro res r1 q2 hd
    exact (queue_deq_ret_zero _ _ _ _ _ hd).2.1

/-- C19 after `enq(10); deq`: both counters are 1. -/
theorem ms_counters_witness :
    run (0 + 1) (new_queue 0) 0 [Op.enq 10, Op.deq]
      = .ret ([(1, 10)], ⟨2, 1, 2, 1, [none, some ⟨0, 10⟩]⟩) ∧
    (enq_count [Op.enq 10, Op.deq] < 2 ^ 64 →
      (⟨2, 1, 2, 1, [none, some ⟨0, 10⟩]⟩ : queue).tail_count = enq_count [Op.enq 10, Op.deq]) :=
  ⟨by decide, (ms_counters 0 0 0 [Op.enq 10, Op.deq] [(1, 10)]
    ⟨2, 1, 2, 1, [none, some ⟨0, 10⟩]⟩ (by decide)).2.2.2.1⟩

end MS

/-! ## More facts about the allocator -/

namespace Mem

theorem load_write {α : Type} (h : List (Option α)) (a b : Nat) (v : Option α) (ha : a ≠ 0) :
    load (write h a v) b = if b = a then v else load h b := by
  by_cases hb : b = a
  · subst hb; simp [load_write_same _ _ _ ha]
  · simp [hb, load_write_ne _ _ _ _ hb]

theorem load_some_lt {α : Type} {h : List (Option α)} {a : Nat} {c : α}
    (hl : load h a = some c) : a ≠ 0 ∧ a - 1 < h.length := by
  unfold load at hl
  split at hl
  · simp at hl
  · rename_i ha
    refine ⟨ha, ?_⟩
    by_contra hge
    rw [List.getD_eq_getElem?_getD, List.getElem?_eq_none (by omega)] at hl
    simp at hl

theorem free_index_of_all_some {α : Type} (h : List (Option α)) (hs : ∀ o ∈ h, o ≠ none) :
    free_index h = h.length := by
  induction h with
  | nil => rfl
  | cons x t ih =>
    cases x with
    | none => exact absurd rfl (hs none (by simp))
    | some v =>
      simp only [free_index, List.length_cons]
      rw [ih (fun o ho => hs o (List.mem_cons_of_mem _ ho))]

theorem write_all_some {α : Type} (h : List (Option α)) (a : Nat) (v : α)
    (hs : ∀ o ∈ h, o ≠ none) (ha : a - 1 ≤ h.length) :
    ∀ o ∈ write h a (some v), o ≠ none := by
  unfold write
  split
  · exact hs
  · split
    · intro o ho
      rcases List.mem_or_eq_of_mem_set ho with h1 | h1
      · exact hs o h1
      · rw [h1]; simp
    · have : a - 1 - h.length = 0 := by omega
      rw [this]
      intro o ho
      simp only [List.replicate_zero, List.append_nil, List.mem_append, List.mem_singleton] at ho
      rcases ho with h1 | h1
      · exact hs o h1
      · rw [h1]; simp

theorem write_length_le {α : Type} (h : List (Option α)) (a : Nat) (v : Option α) :
    h.length ≤ (write h a v).length := by
  unfold write
  split
  · exact le_refl _
  · split
    · simp
    · simp

end Mem

/-! ## Baskets queue: tags, one enqueue, one dequeue, and what no call ever does -/

namespace Basket

theorem delete_tag_zero_mod (t : Nat) : delete_tag 0 t = t % 2 ^ 63 := by
  unfold delete_tag
  have h1 : (0xFFFFFFFFFFFFFFFF >>> (if (0 : Nat) = 0 then 1 else 0) : Nat) = 2 ^ 63 - 1 := by
    decide
  rw [h1, Nat.and_comm, Nat.and_pow_two_sub_one_eq_mod]

/-- C12 (code at the failing inputs): on 64-bit tags `delete_tag(1, t)` is `t`
itself, so its high bit is that of `t` and `deleted(delete_tag(1, t))` is
`deleted(t)`, which is 0 for every counter below `2^63`, as for `t = 0`. Only
`delete_tag(0, t)` does what is claimed: it keeps the low 63 bits and clears
the high bit. -/
theorem delete_tag_one_is_identity (t : Nat) (h : t < 2 ^ 64) :
    delete_tag 1 t = t ∧
    deleted (delete_tag 1 t) = deleted t ∧
    (t < 2 ^ 63 → deleted (delete_tag 1 t) = 0) ∧
    deleted (delete_tag 1 0) = 0 ∧
    delete_tag 0 t = t % 2 ^ 63 ∧
    deleted (delete_tag 0 t) = 0 := by
  refine ⟨delete_tag_one t h, by rw [delete_tag_one t h], ?_, by decide,
    delete_tag_zero_mod t, ?_⟩
  · intro h63
    rw [delete_tag_one t h]
    exact deleted_small t h63
  · rw [delete_tag_zero_mod]
    exact deleted_small _ (Nat.mod_lt _ (by decide))

/-- C12 at `t = 5`: the tag is unchanged and the deleted bit is not set. -/
theorem delete_tag_one_is_identity_witness :
    5 < 2 ^ 64 ∧ delete_tag 1 5 = 5 ∧ deleted (delete_tag 1 5) = deleted 5 :=
  ⟨by decide, (delete_tag_one_is_identity 5 (by decide)).1,
    (delete_tag_one_is_identity 5 (by decide)).2.1⟩

/-- C11 (code at the failing inputs): a `queue_deq` that finds the link behind
`head` live, with a counter below `2^63 - 1`, returns 1 and leaves that link
with the same pointer and a counter one higher, but with the deleted bit still
clear; nothing else in the queue changes. -/
theorem basket_deq_leaves_link_live (fuel : Nat) (q : queue) (result : Nat) (h n : cell)
    (hh : Mem.load q.heap q.head.ptr = some h) (hne : q.head.ptr ≠ q.tail.ptr)
    (hn : Mem.load q.heap h.next.ptr = some n) (hk : h.next.tag + 1 < 2 ^ 63) :
    ∃ q1, queue_deq (fuel + 1) q result = .ret (1, n.data, q1) ∧
      Mem.load q1.heap q.head.ptr = some ⟨⟨h.next.ptr, h.next.tag + 1⟩, h.data⟩ ∧
      deleted (h.next.tag + 1) = 0 ∧
      (∀ a, a ≠ q.head.ptr → Mem.load q1.heap a = Mem.load q.heap a) ∧
      q1.head = q.head ∧ q1.tail = q.tail := by
  have hd : deleted h.next.tag = 0 := deleted_small _ (by omega)
  have h64 : h.next.tag + 1 < 2 ^ 64 := by omega
  have hstep := queue_deq_live fuel q result h n hh hne hd hn
  rw [Nat.mod_eq_of_lt h64, delete_tag_one _ h64] at hstep
  have hh0 : q.head.ptr ≠ 0 := by
    intro e; rw [e, Mem.load_zero] at hh; exact absurd hh (by simp)
  refine ⟨_, hstep, Mem.load_write_same _ _ _ hh0, deleted_small _ hk, ?_, rfl, rfl⟩
  intro a ha
  exact Mem.load_write_ne _ _ _ _ ha

/-- C11 after `enq(10)` on the fresh queue: the dequeue returns 10 and the link
behind the dummy cell goes from tag 1 to tag 2, `deleted(2) = 0`. -/
theorem basket_deq_leaves_link_live_witness :
    ∃ q1, queue_deq (0 + 1) ⟨⟨1, 0⟩, ⟨2, 1⟩, [some ⟨⟨2, 1⟩, 0⟩, some ⟨⟨0, 2⟩, 10⟩]⟩ 0
        = .ret (1, 10, q1) ∧
      Mem.load q1.heap 1 = some ⟨⟨2, 1 + 1⟩, 0⟩ ∧ deleted (1 + 1) = 0 :=
  have h := basket_deq_leaves_link_live 0
    ⟨⟨1, 0⟩, ⟨2, 1⟩, [some ⟨⟨2, 1⟩, 0⟩, some ⟨⟨0, 2⟩, 10⟩]⟩ 0 ⟨⟨2, 1⟩, 0⟩ ⟨⟨0, 2⟩, 10⟩
    (by decide) (by decide) (by decide) (by decide)
  h.elim (fun q1 hq1 => ⟨q1, hq1.1, hq1.2.1, hq1.2.2.1⟩)

/-- C17: if `q->tail = (p, t)`, the cell `p` has `next.ptr == NULL` and
`t + 2 < 2^63`, then `queue_enq(q, x)` returns; the cell `c` it allocated was
not allocated before, holds `x` and `next = (NULL, t + 2)`; `p->next` is
`(c, t + 1)`; both tags have the deleted bit clear; `q->tail` is `(c, t + 1)`;
`q->head`, the payload of `p` and all other cells are unchanged. -/
theorem basket_enq_appends (fuel : Nat) (q : queue) (x : Nat) (junk : pointer) (p t : Nat)
    (pc : cell) (htail : q.tail = ⟨p, t⟩) (hp : Mem.load q.heap p = some pc)
    (hnull : pc.next.ptr = 0) (ht : t + 2 < 2 ^ 63) :
    ∃ c q1, queue_enq (fuel + 1) q x junk = .ret q1 ∧
      c ≠ 0 ∧ Mem.load q.heap c = none ∧
      Mem.load q1.heap c = some ⟨⟨0, t + 2⟩, x⟩ ∧ deleted (t + 2) = 0 ∧
      Mem.load q1.heap p = some ⟨⟨c, t + 1⟩, pc.data⟩ ∧ deleted (t + 1) = 0 ∧
      q1.tail = ⟨c, t + 1⟩ ∧ q1.head = q.head ∧
      (∀ a, a ≠ c → a ≠ p → Mem.load q1.heap a = Mem.load q.heap a) := by
  have hpt : q.tail.ptr = p := by rw [htail]
  have htt : q.tail.tag = t := by rw [htail]
  have hstep := queue_enq_last fuel q x junk pc (by rw [hpt]; exact hp) hnull
  have e1 : delete_tag 0 ((t + 1) % 2 ^ 64) = t + 1 := by
    rw [Nat.mod_eq_of_lt (by omega)]; exact delete_tag_zero _ (by omega)
  have e2 : delete_tag 0 ((t + 2) % 2 ^ 64) = t + 2 := by
    rw [Nat.mod_eq_of_lt (by omega)]; exact delete_tag_zero _ (by omega)
  rw [hpt, htt, e1, e2] at hstep
  have hc0 : Mem.malloc q.heap ≠ 0 := Mem.malloc_ne_zero _
  have hpc : p ≠ Mem.malloc q.heap := load_some_ne_malloc hp
  have hp0 : p ≠ 0 := by
    intro e; rw [e, Mem.load_zero] at hp; exact absurd hp (by simp)
  refine ⟨Mem.malloc q.heap, _, hstep, hc0, Mem.load_malloc _, ?_, deleted_small _ ht, ?_,
    deleted_small _ (by omega), rfl, rfl, ?_⟩
  · show Mem.load (Mem.write _ p _) (Mem.malloc q.heap) = _
    rw [Mem.load_write_ne _ _ _ _ (Ne.symm hpc), Mem.load_write_same _ _ _ hc0]
  · exact Mem.load_write_same _ _ _ hp0
  · intro a hac hap
    show Mem.load (Mem.write _ p _) a = _
    rw [Mem.load_write_ne _ _ _ _ hap, Mem.load_write_ne _ _ _ _ hac,
      Mem.load_write_ne _ _ _ _ hac]

/-- C17 on the fresh queue: the first enqueue allocates cell 2. -/
theorem basket_enq_appends_witness :
    ∃ c q1, queue_enq (0 + 1) (new_queue 0) 10 ⟨0, 0⟩ = .ret q1 ∧
      Mem.load q1.heap c = some ⟨⟨0, 0 + 2⟩, 10⟩ ∧
      Mem.load q1.heap 1 = some ⟨⟨c, 0 + 1⟩, 0⟩ ∧ q1.tail = ⟨c, 0 + 1⟩ :=
  have h := basket_enq_appends 0 (new_queue 0) 10 ⟨0, 0⟩ 1 0 ⟨⟨0, 0⟩, 0⟩
    (by decide) (by decide) (by decide) (by decide)
  h.elim (fun c hc => hc.elim (fun q1 hq1 =>
    ⟨c, q1, hq1.1, hq1.2.2.2.1, hq1.2.2.2.2.2.1, hq1.2.2.2.2.2.2.2.1⟩))

theorem Untouched_new_queue (junk : Nat) : Untouched (new_queue junk) 0 := by
  have hheap : (new_queue junk).heap = [some ⟨⟨0, 0⟩, junk⟩] := rfl
  have hhead : (new_queue junk).head = ⟨1, 0⟩ := rfl
  have htail : (new_queue junk).tail = ⟨1, 0⟩ := rfl
  refine ⟨rfl, ⟨⟨⟨0, 0⟩, junk⟩, rfl, ?_⟩, ⟨⟨⟨0, 0⟩, junk⟩, rfl, rfl⟩, ?_, ?_, ?_⟩
  · intro hne
    rw [hhead, htail] at hne
    exact absurd rfl hne
  · rw [htail]
  · intro a c hl
    rw [hheap] at hl
    obtain ⟨ha0, halt⟩ := Mem.load_some_lt hl
    have ha : a = 1 := by
      simp only [List.length_singleton] at halt
      omega
    subst ha
    have : c = ⟨⟨0, 0⟩, junk⟩ := by
      have h2 : Mem.load [some (⟨⟨0, 0⟩, junk⟩ : cell)] 1 = some ⟨⟨0, 0⟩, junk⟩ := rfl
      rw [h2] at hl
      exact (Option.some.inj hl).symm
    rw [this]
    exact Nat.zero_le _
  · intro o ho
    rw [hheap] at ho
    simp only [List.mem_singleton] at ho
    rw [ho]
    simp

theorem Untouched_mono (q : queue) (N : Nat) (hq : Untouched q N) : Untouched q (N + 1) := by
  obtain ⟨h1, h2, h3, h4, h5, h6⟩ := hq
  exact ⟨h1, h2, h3, by omega, fun a c hl => by have := h5 a c hl; omega, h6⟩

/-- A dequeue on a queue whose `head` and `tail` designate the same cell, which
has no successor, returns 0 and changes nothing. -/
theorem queue_deq_none (fuel : Nat) (q : queue) (result : Nat) (h : cell)
    (hh : Mem.load q.heap q.head.ptr = some h) (heq : q.head.ptr = q.tail.ptr)
    (hnull : h.next.ptr = 0) :
    queue_deq (fuel + 1) q result = .ret (0, result, q) := by
  have hcmp : pointer_cmp q.head q.head = 1 := by simp [pointer_cmp]
  rw [queue_deq]
  simp only [hh, hcmp]
  simp [heq, hnull]

theorem Untouched_enq (fuel : Nat) (q : queue) (N x : Nat) (junk : pointer)
    (hq : Untouched q N) (hN : N + 2 < 2 ^ 63) :
    ∃ q1, queue_enq (fuel + 1) q x junk = .ret q1 ∧ Untouched q1 (N + 1) := by
  obtain ⟨hhead, ⟨h, hh, hnext⟩, ⟨t, ht, hnull⟩, htag, htags, hsome⟩ := hq
  have hstep := queue_enq_last fuel q x junk t ht hnull
  have e1 : delete_tag 0 ((q.tail.tag + 1) % 2 ^ 64) = q.tail.tag + 1 := by
    rw [Nat.mod_eq_of_lt (by omega)]; exact delete_tag_zero _ (by omega)
  have e2 : delete_tag 0 ((q.tail.tag + 2) % 2 ^ 64) = q.tail.tag + 2 := by
    rw [Nat.mod_eq_of_lt (by omega)]; exact delete_tag_zero _ (by omega)
  rw [e1, e2] at hstep
  have hc0 : Mem.malloc q.heap ≠ 0 := Mem.malloc_ne_zero _
  have hpc : q.tail.ptr ≠ Mem.malloc q.heap := load_some_ne_malloc ht
  have hhc : q.head.ptr ≠ Mem.malloc q.heap := load_some_ne_malloc hh
  have hp0 : q.tail.ptr ≠ 0 := (Mem.load_some_lt ht).1
  -- every load of the new heap
  have hload : ∀ a, Mem.load
      (Mem.write (Mem.write (Mem.write q.heap (Mem.malloc q.heap) (some ⟨junk, x⟩))
        (Mem.malloc q.heap) (some ⟨⟨0, q.tail.tag + 2⟩, x⟩)) q.tail.ptr
        (some ⟨⟨Mem.malloc q.heap, q.tail.tag + 1⟩, t.data⟩)) a
      = if a = q.tail.ptr then some ⟨⟨Mem.malloc q.heap, q.tail.tag + 1⟩, t.data⟩
        else if a = Mem.malloc q.heap then some ⟨⟨0, q.tail.tag + 2⟩, x⟩
        else Mem.load q.heap a := by
    intro a
    rw [Mem.load_write _ _ _ _ hp0, Mem.load_write _ _ _ _ hc0, Mem.load_write _ _ _ _ hc0]
    by_cases h1 : a = q.tail.ptr
    · simp [h1]
    · by_cases h2 : a = Mem.malloc q.heap
      · simp [h2]
      · simp [h1, h2]
  refine ⟨_, hstep, hhead, ?_, ?_, ?_, ?_, ?_⟩
  · -- the cell behind head
    show ∃ h1, Mem.load _ q.head.ptr = some h1 ∧
      (q.head.ptr ≠ Mem.malloc q.heap → ∃ n, Mem.load _ h1.next.ptr = some n)
    by_cases hht : q.head.ptr = q.tail.ptr
    · refine ⟨⟨⟨Mem.malloc q.heap, q.tail.tag + 1⟩, t.data⟩, ?_, ?_⟩
      · rw [hload]; simp [hht]
      · intro _
        refine ⟨⟨⟨0, q.tail.tag + 2⟩, x⟩, ?_⟩
        rw [hload]
        simp [Ne.symm hpc]
    · refine ⟨h, ?_, ?_⟩
      · rw [hload]; simp [hht, hhc, hh]
      · intro _
        obtain ⟨n, hn⟩ := hnext hht
        rw [hload]
        by_cases h1 : h.next.ptr = q.tail.ptr
        · simp [h1]
        · have h2 : h.next.ptr ≠ Mem.malloc q.heap := load_some_ne_malloc hn
          simp [h1, h2, hn]
  · -- the new tail cell
    refine ⟨⟨⟨0, q.tail.tag + 2⟩, x⟩, ?_, rfl⟩
    show Mem.load _ (Mem.malloc q.heap) = _
    rw [hload]
    simp [Ne.symm hpc]
  · show q.tail.tag + 1 ≤ N + 1
    omega
  · intro a c hl
    change Mem.load _ a = some c at hl
    rw [hload] at hl
    by_cases h1 : a = q.tail.ptr
    · simp only [h1, if_true] at hl
      rw [← Option.some.inj hl]
      show q.tail.tag + 1 ≤ N + 1 + 1
      omega
    · by_cases h2 : a = Mem.malloc q.heap
      · simp only [h1, h2, if_true, if_false] at hl
        have h3 : ¬ Mem.malloc q.heap = q.tail.ptr := fun e => hpc e.symm
        simp only [h3, if_false] at hl
        rw [← Option.some.inj hl]
        show q.tail.tag + 2 ≤ N + 1 + 1
        omega
      · simp only [h1, h2, if_false] at hl
        have := htags a c hl
        omega
  · -- nothing has been freed
    show ∀ o ∈ Mem.write _ _ _, o ≠ none
    have hfi : Mem.malloc q.heap - 1 = q.heap.length := by
      simp [Mem.malloc, Mem.free_index_of_all_some q.heap hsome]
    have s1 := Mem.write_all_some q.heap (Mem.malloc q.heap) ⟨junk, x⟩ hsome (by omega)
    have l1 := Mem.write_length_le q.heap (Mem.malloc q.heap) (some ⟨junk, x⟩)
    have s2 := Mem.write_all_some _ (Mem.malloc q.heap) ⟨⟨0, q.tail.tag + 2⟩, x⟩ s1 (by omega)
    have l2 := Mem.write_length_le (Mem.write q.heap (Mem.malloc q.heap) (some ⟨junk, x⟩))
      (Mem.malloc q.heap) (some ⟨⟨0, q.tail.tag + 2⟩, x⟩)
    have hplt := (Mem.load_some_lt ht).2
    exact Mem.write_all_some _ q.tail.ptr _ s2 (by omega)

theorem Untouched_deq (fuel : Nat) (q : queue) (N result : Nat)
    (hq : Untouched q N) (hN : N + 2 < 2 ^ 63) :
    ∃ r r1 q1, queue_deq (fuel + 1) q result = .ret (r, r1, q1) ∧ Untouched q1 (N + 1) := by
  have hq0 := hq
  obtain ⟨hhead, ⟨h, hh, hnext⟩, ⟨t, ht, hnull⟩, htag, htags, hsome⟩ := hq
  by_cases hht : q.head.ptr = q.tail.ptr
  · have hth : t = h := by
      rw [← hht, hh] at ht
      exact (Option.some.inj ht).symm
    subst hth
    exact ⟨0, result, q, queue_deq_none fuel q result t hh hht hnull, Untouched_mono q N hq0⟩
  · obtain ⟨n, hn⟩ := hnext hht
    have hk := htags _ _ hh
    have hd : deleted h.next.tag = 0 := deleted_small _ (by omega)
    have h64 : h.next.tag + 1 < 2 ^ 64 := by omega
    have hstep := queue_deq_live fuel q result h n hh hht hd hn
    rw [Nat.mod_eq_of_lt h64, delete_tag_one _ h64] at hstep
    have hh0 : q.head.ptr ≠ 0 := (Mem.load_some_lt hh).1
    have hload : ∀ a, Mem.load
        (Mem.write q.heap q.head.ptr (some ⟨⟨h.next.ptr, h.next.tag + 1⟩, h.data⟩)) a
        = if a = q.head.ptr then some ⟨⟨h.next.ptr, h.next.tag + 1⟩, h.data⟩
          else Mem.load q.heap a := fun a => Mem.load_write _ _ _ _ hh0
    refine ⟨1, n.data, _, hstep, hhead, ?_, ?_, ?_, ?_, ?_⟩
    · refine ⟨⟨⟨h.next.ptr, h.next.tag + 1⟩, h.data⟩, ?_, ?_⟩
      · show Mem.load _ q.head.ptr = _
        rw [hload]; simp
      · intro _
        show ∃ n1, Mem.load _ h.next.ptr = some n1
        rw [hload]
        by_cases h1 : h.next.ptr = q.head.ptr
        · simp [h1]
        · simp [h1, hn]
    · refine ⟨t, ?_, hnull⟩
      show Mem.load _ q.tail.ptr = _
      rw [hload]
      simp [Ne.symm hht, ht]
    · show q.tail.tag ≤ N + 1
      omega
    · intro a c hl
      change Mem.load _ a = some c at hl
      rw [hload] at hl
      by_cases h1 : a = q.head.ptr
      · simp only [h1, if_true] at hl
        rw [← Option.some.inj hl]
        show h.next.tag + 1 ≤ N + 1 + 1
        omega
      · simp only [h1, if_false] at hl
        have := htags a c hl
        omega
    · show ∀ o ∈ Mem.write _ _ _, o ≠ none
      have hplt := (Mem.load_some_lt hh).2
      exact Mem.write_all_some _ q.head.ptr _ hsome (by omega)

theorem Untouched_run (fuel : Nat) (junk : pointer) (ops : List Op) :
    ∀ (q : queue) (N result : Nat), Untouched q N → N + ops.length + 1 < 2 ^ 63 →
      ∃ trace q1, run (fuel + 1) junk q result ops = .ret (trace, q1) ∧
        Untouched q1 (N + ops.length) := by
  induction ops with
  | nil => intro q N result hq _; exact ⟨[], q, rfl, hq⟩
  | cons op ops ih =>
    intro q N result hq hN
    simp only [List.length_cons] at hN
    cases op with
    | enq x =>
      obtain ⟨q1, h1, hq1⟩ := Untouched_enq fuel q N x junk hq (by omega)
      obtain ⟨trace, q2, h2, hq2⟩ := ih q1 (N + 1) result hq1 (by omega)
      refine ⟨trace, q2, by simp only [run, h1, h2], ?_⟩
      have : N + (ops.length + 1) = N + 1 + ops.length := by omega
      simp only [List.length_cons]
      rw [this]
      exact hq2
    | deq =>
      obtain ⟨r, r1, q1, h1, hq1⟩ := Untouched_deq fuel q N result hq (by omega)
      obtain ⟨trace, q2, h2, hq2⟩ := ih q1 (N + 1) r1 hq1 (by omega)
      refine ⟨(r, r1) :: trace, q2, by simp only [run, h1, h2], ?_⟩
      have : N + (ops.length + 1) = N + 1 + ops.length := by omega
      simp only [List.length_cons]
      rw [this]
      exact hq2

/-- C20: after any sequence of fewer than `2^62` calls on `new_queue()`, all of
which return, no next-link has its deleted bit set, `q->head` is still the
dummy cell with tag 0, no block has been freed, and the walk of the next
`queue_deq` over deleted links stops at once: `iter` is `head`, which is not
`tail`, and `hops` is 0, below `max_hops = 3`, so neither call of `free_chain`
is reached. -/
theorem basket_no_link_is_ever_deleted (fuel junk result : Nat) (jp : pointer)
    (ops : List Op) (hlen : ops.length < 2 ^ 62) :
    ∃ trace q1, run (fuel + 1) jp (new_queue junk) result ops = .ret (trace, q1) ∧
      (∀ a c, Mem.load q1.heap a = some c → deleted c.next.tag = 0) ∧
      q1.head = (new_queue junk).head ∧
      q1.head = ⟨1, 0⟩ ∧
      (∀ o ∈ q1.heap, o ≠ none) ∧
      (∀ h, Mem.load q1.heap q1.head.ptr = some h → q1.head.ptr ≠ q1.tail.ptr →
        hop_walk (fuel + 1) q1 q1.head q1.tail q1.head h.next 0
          = .ret (q1.head, h.next, 0)) := by
  obtain ⟨trace, q1, hrun, hq1⟩ :=
    Untouched_run fuel jp ops (new_queue junk) 0 result (Untouched_new_queue junk) (by
      have : (2 : Nat) ^ 63 = 2 * 2 ^ 62 := by norm_num
      omega)
  obtain ⟨hhead, _, _, _, htags, hsome⟩ := hq1
  have hdel : ∀ a c, Mem.load q1.heap a = some c → deleted c.next.tag = 0 := by
    intro a c hl
    have := htags a c hl
    have h63 : (2 : Nat) ^ 63 = 2 * 2 ^ 62 := by norm_num
    exact deleted_small _ (by omega)
  refine ⟨trace, q1, hrun, hdel, hhead, hhead, hsome, ?_⟩
  intro h hl _
  rw [hop_walk]
  simp only [hdel _ _ hl]
  simp

/-- C20 for `enq(10); deq; deq`. -/
theorem basket_no_link_is_ever_deleted_witness :
    [Op.enq 10, Op.deq, Op.deq].length < 2 ^ 62 ∧
    ∃ trace q1, run (0 + 1) ⟨0, 0⟩ (new_queue 0) 0 [Op.enq 10, Op.deq, Op.deq]
        = .ret (trace, q1) ∧ q1.head = ⟨1, 0⟩ :=
  ⟨by decide,
    (basket_no_link_is_ever_deleted 0 0 0 ⟨0, 0⟩ [Op.enq 10, Op.deq, Op.deq] (by decide)).elim
      (fun trace ht => ht.elim (fun q1 hq1 => ⟨trace, q1, hq1.1, hq1.2.2.2.1⟩))⟩

end Basket

/-! ## Baskets queue: the smoke test with its threads run one after the other -/

namespace Basket

theorem OldestStays_run (fuel : Nat) (jp : pointer) (ops : List Op) :
    ∀ (q : queue) (x k result : Nat), OldestStays q x k → k + ops.length < 2 ^ 63 →
      ∃ q1, run (fuel + 1) jp q result ops
        = .ret (List.replicate (ops.count Op.deq) (1, x), q1) := by
  induction ops with
  | nil => intro q x k result _ _; exact ⟨q, rfl⟩
  | cons o os ih =>
    intro q x k result hq hk
    have hlen : (o :: os).length = os.length + 1 := rfl
    cases o with
    | enq y =>
      obtain ⟨q1, h1, hq1⟩ := OldestStays_enq fuel q x k y jp hq
      obtain ⟨q2, h2⟩ := ih q1 x k result hq1 (by omega)
      have hc : (Op.enq y :: os).count Op.deq = os.count Op.deq := by
        rw [List.count_cons]; simp
      exact ⟨q2, by rw [hc]; simp only [run, h1, h2]⟩
    | deq =>
      obtain ⟨q1, h1, hq1⟩ := OldestStays_deq fuel q x k result hq (by omega)
      obtain ⟨q2, h2⟩ := ih q1 x (k + 1) x hq1 (by omega)
      have hc : (Op.deq :: os).count Op.deq = os.count Op.deq + 1 := by
        rw [List.count_cons]; simp
      exact ⟨q2, by rw [hc]; simp only [run, h1, h2, List.replicate_succ]⟩

/-- C10 (code at the failing input): in the execution of the smoke test
`tests/queue.c` on the baskets queue in which the four threads run one after
the other, every one of the 20 calls of `queue_deq` returns 1 with the value
0, the first value enqueued. The values enqueued are 0, ..., 19, so the values
dequeued are not a rearrangement of the values enqueued: 0 is dequeued twenty
times and 1, ..., 19 never. -/
theorem basket_smoke_test_serial_repeats_first (fuel junk result : Nat) (jp : pointer) :
    (∃ q1, run (fuel + 1) jp (new_queue junk) result serial_schedule
      = .ret (List.replicate 20 (1, 0), q1)) ∧
    enq_values serial_schedule = List.range 20 ∧
    ¬ List.Perm ((List.replicate 20 ((1 : Nat), (0 : Nat))).map Prod.snd) (List.range 20) := by
  refine ⟨?_, by decide, ?_⟩
  · obtain ⟨q1, h1, hq1⟩ := OldestStays_first fuel junk 0 jp
    obtain ⟨q2, h2⟩ := OldestStays_run fuel jp serial_schedule.tail q1 0 1 result hq1
      (by decide)
    have hs : serial_schedule = Op.enq 0 :: serial_schedule.tail := by decide
    have hc : serial_schedule.tail.count Op.deq = 20 := by decide
    rw [hc] at h2
    have step : run (fuel + 1) jp (new_queue junk) result (Op.enq 0 :: serial_schedule.tail)
        = run (fuel + 1) jp q1 result serial_schedule.tail := by
      rw [run, h1]
    rw [hs, step]
    exact ⟨q2, h2⟩
  · intro h
    have := h.count_eq 1
    revert this
    decide

end Basket
